import Mathlib

/-!
Verification development for the bounded fragment pipeline
(`scripts/utils.py`, `scripts/run_pipeline.py`).

Strings are shallowly embedded as `List Char` (Python strings are
sequences of code points; `len`, slicing and concatenation become list
operations).  Python's `\s` / `str.isspace` / `str.strip` whitespace is
modelled by the six ASCII whitespace characters; exotic unicode
whitespace and the rarer `str.splitlines` separators are outside the
model.  Diagnostic note strings that the Python code only prints to
stderr are omitted: they do not flow into any returned value.
-/

namespace Pipeline

abbrev Str := List Char

/-- Python whitespace test restricted to ASCII: space, TAB, LF, VT, FF, CR. -/
def pyIsSpace (c : Char) : Bool :=
  c = ' ' || c = '\t' || c = '\n' || c = '\x0b' || c = '\x0c' || c = '\r'

/-- All non-whitespace characters of a string, in order. -/
def dropWs (s : Str) : Str := s.filter (fun c => !pyIsSpace c)

/-- Python `str.strip()`: remove leading and trailing whitespace. -/
def pyStrip (s : Str) : Str :=
  ((s.dropWhile pyIsSpace).reverse.dropWhile pyIsSpace).reverse

/-- Python `"\n".join`-style length: sum of piece lengths plus one
separator between consecutive pieces (`_joined_len` in utils.py). -/
def joined_len (xs : List Str) : Nat :=
  match xs with
  | [] => 0
  | _ => (xs.map List.length).sum + (xs.length - 1)

/-- `"\n".join(xs)` on the embedded strings. -/
def joinNl (xs : List Str) : Str := List.intercalate ['\n'] xs

/-- Python `str.splitlines()` restricted to the separators `\n`, `\r\n`, `\r`. -/
def splitlinesGo : Str → Str → List Str
  | cur, [] => if cur.isEmpty then [] else [cur.reverse]
  | cur, '\r' :: '\n' :: rest => cur.reverse :: splitlinesGo [] rest
  | cur, '\r' :: rest => cur.reverse :: splitlinesGo [] rest
  | cur, '\n' :: rest => cur.reverse :: splitlinesGo [] rest
  | cur, c :: rest => splitlinesGo (c :: cur) rest

def splitlines (s : Str) : List Str := splitlinesGo [] s

/-- The sentence delimiters of `SENTENCE_SPLIT_RE` (`[.!?…]`). -/
def sentenceDelims : List Char := ['.', '!', '?', '…']

/-- `re.split(r"(?<=[D])\s+", s)`: cut the string at every maximal
whitespace run whose first character is preceded by a delimiter from
`delims`; the runs themselves are dropped.  `cur` holds the current part
reversed, `prev` the previously scanned character. -/
def splitAfterDelimsGo (delims : List Char) : Str → Option Char → Bool → Str → List Str
  | cur, _, _, [] => [cur.reverse]
  | cur, prev, inRun, c :: rest =>
    if inRun ∧ pyIsSpace c then splitAfterDelimsGo delims cur prev true rest
    else if pyIsSpace c ∧ (∃ d, prev = some d ∧ d ∈ delims) then
      cur.reverse :: splitAfterDelimsGo delims [] (some ' ') true rest
    else splitAfterDelimsGo delims (c :: cur) (some c) false rest

def splitAfterDelims (delims : List Char) (s : Str) : List Str :=
  splitAfterDelimsGo delims [] none false s

/-- `re.findall(r"\S+|\s+", s)`: the maximal runs of whitespace /
non-whitespace characters, in order.  `cur` is the reversed run being
accumulated. -/
def tokenizeWsGo : Str → Str → List Str
  | cur, [] => if cur.isEmpty then [] else [cur.reverse]
  | [], c :: rest => tokenizeWsGo [c] rest
  | d :: ds, c :: rest =>
    if pyIsSpace c = pyIsSpace d then tokenizeWsGo (c :: d :: ds) rest
    else (d :: ds).reverse :: tokenizeWsGo [c] rest

def tokenizeWs (s : Str) : List Str := tokenizeWsGo [] s

/-- The character-level hard split inside
`_split_by_words_with_char_fallback`: consecutive slices of size
`limit`; `room` counts the characters still fitting into the slice
being accumulated (reversed in `cur`).  The Python loop does not
terminate when `limit = 0`; every caller guarantees `limit ≥ 1`, and
the model returns `[]` in the dead `limit = 0` case. -/
def charSplitGo (limit : Nat) : Nat → Str → Str → List Str
  | _, cur, [] => if cur.isEmpty then [] else [cur.reverse]
  | 0, cur, c :: rest => cur.reverse :: charSplitGo limit (limit - 1) [c] rest
  | room + 1, cur, c :: rest => charSplitGo limit room (c :: cur) rest

def charSplit (limit : Nat) (s : Str) : List Str :=
  if limit = 0 then [] else charSplitGo limit limit [] s

/-- Word-packing loop of `_split_by_words_with_char_fallback`. -/
def packWordsGo (limit : Nat) : List Str → Str → List Str → List Str
  | [], buf, pieces => pieces ++ (if buf.isEmpty then [] else [buf])
  | tok :: rest, buf, pieces =>
    if buf.length + tok.length ≤ limit then packWordsGo limit rest (buf ++ tok) pieces
    else
      let pieces' := pieces ++ (if buf.isEmpty then [] else [buf])
      if tok.length > limit then packWordsGo limit rest [] (pieces' ++ charSplit limit tok)
      else packWordsGo limit rest tok pieces'

/-- `_split_by_words_with_char_fallback` (without the stderr notes). -/
def split_by_words_with_char_fallback (limit : Nat) (text : Str) : List Str :=
  packWordsGo limit (tokenizeWs text) [] []

/-- Sentence-packing loop of `split_line_for_limit`. -/
def packSentencesGo (limit : Nat) : List Str → Str → List Str → List Str
  | [], buf, pieces => pieces ++ (if buf.isEmpty then [] else [buf])
  | s :: rest, buf, pieces =>
    if s.isEmpty then packSentencesGo limit rest buf pieces
    else
      let addLen := if buf.isEmpty then s.length else 1 + s.length
      if buf.length + addLen ≤ limit then
        packSentencesGo limit rest (if buf.isEmpty then s else buf ++ ' ' :: s) pieces
      else
        let pieces' := pieces ++ (if buf.isEmpty then [] else [buf])
        if s.length > limit then
          packSentencesGo limit rest [] (pieces' ++ split_by_words_with_char_fallback limit s)
        else packSentencesGo limit rest s pieces'

/-- `split_line_for_limit` (without the stderr notes): sentences →
words → characters. -/
def split_line_for_limit (line : Str) (limit : Nat) : List Str :=
  if line.length ≤ limit then [line]
  else
    let sentences := splitAfterDelims sentenceDelims line
    if sentences.length > 1 then packSentencesGo limit sentences [] []
    else split_by_words_with_char_fallback limit line

/-! ### Line-preserving chunker (`chunk_text_line_preserving`) -/

/-- One unit of a chunk: `{"text": ..., "orig": ..., "split": ...}`. -/
structure CUnit where
  text : Str
  orig : Nat
  split : Bool
deriving DecidableEq, Repr

/-- One produced chunk; `text` is the `"\n"`-join of the unit texts and
`overlapUnits` is the `_overlap_units` count of leading carried-over
units.  The Python dict's always-`None` `start`/`end` keys are omitted. -/
structure Chunk where
  text : Str
  units : List CUnit
  overlapUnits : Nat
deriving DecidableEq, Repr

/-- The pending queue of splitter pieces for a long line being drained. -/
structure Pending where
  pieces : List Str
  cursor : Nat
  orig : Nat
deriving DecidableEq, Repr

/-- Loop state: cursor over lines, optional pending queue, units of the
previously emitted chunk (`[]` models Python's initial `None`, which
`compute_overlap` treats identically to an empty list). -/
structure CState where
  i : Nat
  pending : Option Pending
  prevUnits : List CUnit
deriving DecidableEq, Repr

/-- Take, scanning from the end of `pieces`, the maximal tail run whose
joined length fits `limit`, stopping at the first piece that does not
fit (the `for s in reversed(...)` loops inside `compute_overlap`). -/
def takeTailFitGo (limit : Nat) : List Str → Nat → List Str → List Str
  | [], _, out => out
  | s :: rest, total, out =>
    let add := if total = 0 then s.length else 1 + s.length
    if total + add ≤ limit then takeTailFitGo limit rest (total + add) (s :: out)
    else out

def takeTailFit (limit : Nat) (pieces : List Str) : List Str :=
  takeTailFitGo limit pieces.reverse 0 []

/-- The whole-line branch of `compute_overlap`: walk the previous
chunk's units from the end, stopping at the first split piece; if not
even the last whole line fits, re-split it and take a tail of the
pieces. -/
def overlapWholeGo (limit : Nat) : List CUnit → Nat → List CUnit → List CUnit
  | [], _, out => out
  | u :: rest, total, out =>
    if u.split then out
    else
      let add := if total = 0 then u.text.length else 1 + u.text.length
      if total + add ≤ limit then overlapWholeGo limit rest (total + add) (u :: out)
      else if out.isEmpty then
        (takeTailFit limit (split_line_for_limit u.text limit)).map
          (fun t => ⟨t, u.orig, true⟩)
      else out

/-- `compute_overlap` from `chunk_text_line_preserving`. -/
def computeOverlap (units : List CUnit) (limit : Nat) : List CUnit :=
  if units.isEmpty ∨ limit = 0 then []
  else
    match units.getLast? with
    | none => []
    | some last =>
      if last.split then
        (takeTailFit limit (split_line_for_limit last.text limit)).map
          (fun t => ⟨t, last.orig, true⟩)
      else overlapWholeGo limit units.reverse 0 []

/-- The `while i < len(lines)` filling loop: add whole lines while they
fit; on the first line that does not fit, finalize if anything new was
added, otherwise split the line and place only its first piece.
Returns `(i', units', added', pending')`. -/
def addLinesGo (cc : Nat) : List Str → Nat → List CUnit → Nat → Nat →
    Nat × List CUnit × Nat × Option Pending
  | [], i, units, _, added => (i, units, added, none)
  | line :: rest, i, units, currLen, added =>
    let nextLen := if currLen = 0 then line.length else 1 + line.length
    if currLen + nextLen ≤ cc then
      addLinesGo cc rest (i + 1) (units ++ [⟨line, i, false⟩]) (currLen + nextLen) (added + 1)
    else if added > 0 then (i, units, added, none)
    else
      let pieces := split_line_for_limit line cc
      match pieces with
      | [] => (i, units, added, some ⟨pieces, 0, i⟩)
      | p0 :: _ =>
        let addLen0 := if currLen = 0 then p0.length else 1 + p0.length
        if currLen + addLen0 ≤ cc then
          if pieces.length ≤ 1 then (i + 1, units ++ [⟨p0, i, true⟩], added + 1, none)
          else (i, units ++ [⟨p0, i, true⟩], added + 1, some ⟨pieces, 1, i⟩)
        else (i, units, added, some ⟨pieces, 0, i⟩)

/-- One fill attempt (step 2 of the loop body): starting from the
overlap units, either place one pending piece or add whole lines.
Returns the chunk units, the number of newly added units and the
updated state. -/
def fillNew (lines : List Str) (cc : Nat) (st : CState) (ov : List CUnit) :
    List CUnit × Nat × CState :=
  let currLen := joined_len (ov.map (·.text))
  match st.pending with
  | some p =>
    let piece := p.pieces.getD p.cursor []
    let addLen := if currLen = 0 then piece.length else 1 + piece.length
    if currLen + addLen ≤ cc then
      if p.cursor + 1 ≥ p.pieces.length then
        (ov ++ [⟨piece, p.orig, true⟩], 1, { st with pending := none, i := st.i + 1 })
      else
        (ov ++ [⟨piece, p.orig, true⟩], 1,
          { st with pending := some { p with cursor := p.cursor + 1 } })
    else (ov, 0, st)
  | none =>
    let r := addLinesGo cc (lines.drop st.i) st.i ov currLen 0
    (r.2.1, r.2.2.1, { st with i := r.1, pending := r.2.2.2 })

/-- Result of one outer-loop iteration: loop exit, the
no-progress-no-overlap dead end (an infinite loop in the source), or an
emitted chunk with the successor state. -/
inductive StepRes where
  | done : StepRes
  | stuck : StepRes
  | emit (c : Chunk) (st : CState) : StepRes
deriving Repr

def mkChunk (units : List CUnit) (novl : Nat) : Chunk :=
  ⟨joinNl (units.map (·.text)), units, novl⟩

/-- One iteration of the outer `while True` loop, including the single
retry with overlap forced to zero when the overlap consumed all room. -/
def chunkStep (lines : List Str) (cc oc : Nat) (st : CState) : StepRes :=
  if lines.length ≤ st.i ∧ st.pending = none then .done
  else
    let hardLimit := min oc (cc - 1)
    let ov := computeOverlap st.prevUnits hardLimit
    let r1 := fillNew lines cc st ov
    if r1.2.1 = 0 ∧ 0 < hardLimit then
      let r2 := fillNew lines cc r1.2.2 []
      if r2.2.1 = 0 then .stuck
      else .emit (mkChunk r2.1 0) { r2.2.2 with prevUnits := r2.1 }
    else if r1.2.1 = 0 then .stuck
    else .emit (mkChunk r1.1 ov.length) { r1.2.2 with prevUnits := r1.1 }

/-- The outer loop, driven by fuel; `none` models non-termination of the
source loop (reachable only in the degenerate `chunk_chars = 0`
configuration). -/
def chunkLoop (lines : List Str) (cc oc : Nat) : Nat → CState → Option (List Chunk)
  | 0, _ => none
  | fuel + 1, st =>
    match chunkStep lines cc oc st with
    | .done => some []
    | .stuck => none
    | .emit c st' => (chunkLoop lines cc oc fuel st').map (c :: ·)

/-- Fuel budget for one line: the loop consumes at most
`1 + number of splitter pieces` iterations per line. -/
def lineBudget (cc : Nat) (l : Str) : Nat := 1 + (split_line_for_limit l cc).length

/-- `chunk_text_line_preserving(lines, chunk_chars, overlap_chars)`.
The early exit returns `some []` when no line has non-whitespace
content. -/
def chunk_text_line_preserving (lines : List Str) (cc oc : Nat) : Option (List Chunk) :=
  if lines.all (fun ln => (pyStrip ln).isEmpty) then some []
  else chunkLoop lines cc oc ((lines.map (lineBudget cc)).sum + 1) ⟨0, none, []⟩

/-- The newly-introduced (non-overlap) units of a chunk sequence. -/
def newUnitsOf (cs : List Chunk) : List CUnit :=
  cs.flatMap (fun c => c.units.drop c.overlapUnits)

/-! ### Term-glossary maps (`coalesce_term_map`, `merge_term_maps`, `diff_term_maps`)

A Python `Dict[str, Set[str]]` is embedded as an insertion-ordered
association list whose values are duplicate-free insertion-ordered
lists (Python sets are modelled up to iteration order, which Python
leaves unspecified for sets; dict iteration order is insertion order
and is preserved exactly). -/

abbrev TermMap := List (Str × List Str)

/-- `set.add`: insert `v` if absent (at the end, fixing one concrete
iteration order for the unordered Python set). -/
def insertVar (vs : List Str) (v : Str) : List Str :=
  if v ∈ vs then vs else vs ++ [v]

/-- `set.update`: insert every element of `ws`. -/
def unionVars (vs ws : List Str) : List Str := ws.foldl insertVar vs

/-- Value of key `k`, as Python `m.get(k)`. -/
def mapFind (m : TermMap) (k : Str) : Option (List Str) :=
  (m.find? (fun e => e.1 = k)).map (·.2)

/-- Python `m.get(k, set())`. -/
def varsOf (m : TermMap) (k : Str) : List Str := (mapFind m k).getD []

/-- Python `del m[k]`. -/
def mapErase (m : TermMap) (k : Str) : TermMap :=
  m.eraseP (fun e => decide (e.1 = k))

/-- In-place update of the value at key `k` (dict order preserved). -/
def mapUpdate (m : TermMap) (k : Str) (f : List Str → List Str) : TermMap :=
  m.map (fun e => if e.1 = k then (e.1, f e.2) else e)

/-- The two merge cases of the `coalesce_term_map` scan at canonical
`k` with variants `vs`.  Case A: `k` is a variant of some other
cluster `j` — merge `k` into `j`.  Case B: some other cluster's
canonical occurs among `vs` — merge it into `k`.  (Python iterates
case B over the unordered set `vs`; the model scans clusters in dict
order, one of the orders Python may take.) -/
def coalesceMergeAt (m : TermMap) (k : Str) (vs : List Str) : Option TermMap :=
  match m.find? (fun e => e.1 ≠ k ∧ k ∈ e.2) with
  | some ej =>
    some (mapErase (mapUpdate m ej.1 (fun ws => insertVar (unionVars ws vs) k)) k)
  | none =>
    match m.find? (fun e => e.1 ≠ k ∧ e.1 ∈ vs) with
    | some ev =>
      some (mapErase (mapUpdate m k (fun ws => insertVar (unionVars ws ev.2) ev.1)) ev.1)
    | none => none

/-- One iteration of the `while changed` loop: find the first cluster
(in dict order) where a merge applies and perform it. -/
def coalesceStepGo (m : TermMap) : List (Str × List Str) → Option TermMap
  | [] => none
  | (k, vs) :: rest =>
    match coalesceMergeAt m k vs with
    | some m' => some m'
    | none => coalesceStepGo m rest

def coalesceStep (m : TermMap) : Option TermMap := coalesceStepGo m m

/-- The `while changed` loop, fuelled; each merge removes one cluster,
so `m.length` steps provably reach the fixed point the Python loop
runs to. -/
def coalesceLoop : Nat → TermMap → TermMap
  | 0, m => m
  | fuel + 1, m =>
    match coalesceStep m with
    | none => m
    | some m' => coalesceLoop fuel m'

/-- `coalesce_term_map`. -/
def coalesce_term_map (m : TermMap) : TermMap :=
  if m.isEmpty then [] else coalesceLoop m.length m

/-- Lexicographic (code-point) order on strings, Python `sorted`. -/
def strLe : Str → Str → Bool
  | [], _ => true
  | _ :: _, [] => false
  | a :: as, b :: bs => if a = b then strLe as bs else decide (a < b)

/-- `merge_term_maps(into, inc)` (the Python function mutates `into`;
the model returns the new value). -/
def merge_term_maps (into inc : TermMap) : TermMap :=
  inc.foldl
    (fun m e =>
      if (m.find? (fun x => x.1 = e.1)).isSome then
        mapUpdate m e.1 (fun ws => unionVars ws e.2)
      else m ++ [(e.1, unionVars [] e.2)])
    into

/-- `diff_term_maps(cur, prev)`: per canonical, the sorted variants not
already known under the same canonical. -/
def diff_term_maps (cur prev : TermMap) : TermMap :=
  cur.filterMap (fun e =>
    let nw := (e.2.filter (fun v => v ∉ varsOf prev e.1)).mergeSort strLe
    if nw.isEmpty then none else some (e.1, nw))

/-! ### Boundary deduplication (`dedup_overlapping_boundary`) -/

/-- The quote/dash unification of `_normalize_for_match` (each Python
`str.replace` call substitutes a single character). -/
def unifyQuoteDash (c : Char) : Char :=
  if c = '“' ∨ c = '”' ∨ c = '„' ∨ c = '«' ∨ c = '»' then '"'
  else if c = '–' ∨ c = '—' ∨ c = '−' then '-' else c

/-- Match `dd:dd:dd`; returns the eight matched characters and the rest. -/
def matchHMS : Str → Option (Str × Str)
  | d1 :: d2 :: ':' :: d3 :: d4 :: ':' :: d5 :: d6 :: rest =>
    if [d1, d2, d3, d4, d5, d6].all Char.isDigit then
      some ([d1, d2, ':', d3, d4, ':', d5, d6], rest)
    else none
  | _ => none

/-- Does the whole string match `_TRAILING_TIMECODE_RE`
(`\s+—\s+\[dd:dd:dd\](?:\(#t=\1\))?\s*$`) from its first character to
the end?  The back-reference requires the optional link to repeat the
bracketed time text. -/
def tcSuffixMatch (s : Str) : Bool :=
  let ws1 := s.takeWhile pyIsSpace
  let r1 := s.dropWhile pyIsSpace
  if ws1.isEmpty then false
  else
    match r1 with
    | '—' :: r2 =>
      let ws2 := r2.takeWhile pyIsSpace
      let r3 := r2.dropWhile pyIsSpace
      if ws2.isEmpty then false
      else
        match r3 with
        | '[' :: r4 =>
          match matchHMS r4 with
          | some (hms, r5) =>
            match r5 with
            | ']' :: r6 =>
              let link := '(' :: '#' :: 't' :: '=' :: (hms ++ [')'])
              let rFinal := if r6.take link.length = link then r6.drop link.length else r6
              rFinal.all pyIsSpace
            | _ => false
          | none => false
        | _ => false
    | _ => false

/-- `_TRAILING_TIMECODE_RE.sub("", s)`: remove the leftmost-starting
suffix matching the pattern, if any. -/
def stripTTGo : Str → Str → Str
  | pre, [] => pre.reverse
  | pre, c :: rest =>
    if tcSuffixMatch (c :: rest) then pre.reverse else stripTTGo (c :: pre) rest

def stripTrailingTimecode (s : Str) : Str := stripTTGo [] s

/-- `re.sub(r"\s+", " ", s)`: collapse every maximal whitespace run to
a single space (`prevWs` records whether the previous character was
whitespace). -/
def collapseWsGo : Bool → Str → Str
  | _, [] => []
  | prevWs, c :: rest =>
    if pyIsSpace c then
      (if prevWs then [] else [' ']) ++ collapseWsGo true rest
    else c :: collapseWsGo false rest

def collapseWs (s : Str) : Str := collapseWsGo false s

/-- `_normalize_for_match`.  Note the source replaces the em dash by
`-` *before* applying the timecode regex (whose pattern contains an em
dash), and the model reproduces that order faithfully. -/
def normalize_for_match (s : Str) : Str :=
  if s.isEmpty then []
  else collapseWs (pyStrip (stripTrailingTimecode (s.map unifyQuoteDash)))

/-- `_window_lines_from_end`: trailing lines whose joined length fits
`maxChars` (at least one line once any is included). -/
def windowEndGo (maxChars : Nat) : List Str → Nat → List Str → List Str
  | [], _, out => out
  | ln :: rest, total, out =>
    let add := ln.length + (if 0 < total then 1 else 0)
    if maxChars < total + add ∧ ¬ out.isEmpty then out
    else if maxChars ≤ total + add then ln :: out
    else windowEndGo maxChars rest (total + add) (ln :: out)

def window_lines_from_end (text : Str) (maxChars : Nat) : List Str :=
  windowEndGo maxChars (splitlines text).reverse 0 []

/-- `_window_lines_from_start`. -/
def windowStartGo (maxChars : Nat) : List Str → Nat → List Str → List Str
  | [], _, out => out.reverse
  | ln :: rest, total, out =>
    let add := ln.length + (if 0 < total then 1 else 0)
    if maxChars < total + add ∧ ¬ out.isEmpty then out.reverse
    else if maxChars ≤ total + add then (ln :: out).reverse
    else windowStartGo maxChars rest (total + add) (ln :: out)

def window_lines_from_start (text : Str) (maxChars : Nat) : List Str :=
  windowStartGo maxChars (splitlines text) 0 []

/-- `for k in range(max_k, 0, -1): if prev[-k:] == cur[:k]: return k`. -/
def findBestGo (prevNorm curNorm : List Str) : Nat → Nat
  | 0 => 0
  | k + 1 =>
    if prevNorm.drop (prevNorm.length - (k + 1)) = curNorm.take (k + 1) then k + 1
    else findBestGo prevNorm curNorm k

/-- `_dedup_try_lines` (its constant `'lines'` mode tag is returned by
the caller below). -/
def dedup_try_lines (prevText curText : Str) (windowChars : Nat) : Nat :=
  let prevNorm := (window_lines_from_end prevText windowChars).map normalize_for_match
  let curNorm := (window_lines_from_start curText windowChars).map normalize_for_match
  findBestGo prevNorm curNorm (min prevNorm.length curNorm.length)

/-- `dedup_overlapping_boundary`: `(new_cur_text, removed_count, mode)`. -/
def dedup_overlapping_boundary (prevText curText : Str) (windowChars : Nat) :
    Str × Nat × Str :=
  if prevText.isEmpty ∨ curText.isEmpty ∨ windowChars = 0 then (curText, 0, "none".data)
  else
    let mc := dedup_try_lines prevText curText windowChars
    if 0 < mc then (joinNl ((splitlines curText).drop mc), mc, "lines".data)
    else (curText, 0, "none".data)

/-! ### Retry/backoff orchestrator (`run_pipeline.py`, per-chunk loop) -/

/-- Case-insensitively match the literal `lit`; return the rest. -/
def matchLitCI : Str → Str → Option Str
  | [], s => some s
  | _ :: _, [] => none
  | l :: ls, c :: cs => if c.toLower = l then matchLitCI ls cs else none

def digitsToNat (ds : Str) : Nat :=
  ds.foldl (fun acc d => acc * 10 + (d.toNat - '0'.toNat)) 0

/-- Try `retry\s+in\s+([0-9]+(?:\.[0-9]+)?)s` (IGNORECASE) anchored at
the start of `s`; returns the captured seconds as a rational. -/
def tryRetryInAt (s : Str) : Option ℚ :=
  match matchLitCI "retry".data s with
  | none => none
  | some r1 =>
    let ws1 := r1.takeWhile pyIsSpace
    let r2 := r1.dropWhile pyIsSpace
    if ws1.isEmpty then none
    else
      match matchLitCI "in".data r2 with
      | none => none
      | some r3 =>
        let ws2 := r3.takeWhile pyIsSpace
        let r4 := r3.dropWhile pyIsSpace
        if ws2.isEmpty then none
        else
          let ds := r4.takeWhile Char.isDigit
          let r5 := r4.dropWhile Char.isDigit
          if ds.isEmpty then none
          else
            match r5 with
            | '.' :: r6 =>
              let fs := r6.takeWhile Char.isDigit
              let r7 := r6.dropWhile Char.isDigit
              if fs.isEmpty then none
              else
                match r7 with
                | c :: _ =>
                  if c.toLower = 's' then
                    some ((digitsToNat ds : ℚ) + (digitsToNat fs : ℚ) / ((10 : ℚ) ^ fs.length))
                  else none
                | [] => none
            | c :: _ => if c.toLower = 's' then some (digitsToNat ds : ℚ) else none
            | [] => none

/-- Try `retry_delay\s*\x7b\s*seconds:\s*([0-9]+)\s*\x7d` (IGNORECASE)
anchored at the start of `s`. -/
def tryRetryDelayAt (s : Str) : Option ℚ :=
  match matchLitCI "retry_delay".data s with
  | none => none
  | some r1 =>
    match (r1.dropWhile pyIsSpace) with
    | c :: r2 =>
      if c ≠ Char.ofNat 123 then none
      else
        match matchLitCI "seconds:".data (r2.dropWhile pyIsSpace) with
        | none => none
        | some r3 =>
          let r4 := r3.dropWhile pyIsSpace
          let ds := r4.takeWhile Char.isDigit
          let r5 := r4.dropWhile Char.isDigit
          if ds.isEmpty then none
          else
            match (r5.dropWhile pyIsSpace) with
            | d :: _ => if d = Char.ofNat 125 then some (digitsToNat ds : ℚ) else none
            | [] => none
    | [] => none

/-- `re.search`: leftmost position at which the matcher succeeds. -/
def searchWith (pat : Str → Option ℚ) : Str → Option ℚ
  | [] => pat []
  | s@(_ :: rest) =>
    match pat s with
    | some q => some q
    | none => searchWith pat rest

/-- `_extract_retry_after_seconds`: first pattern wins. -/
def extract_retry_after_seconds (msg : Str) : Option ℚ :=
  match searchWith tryRetryInAt msg with
  | some q => some q
  | none => searchWith tryRetryDelayAt msg

/-- The adapter error taxonomy (`LLMRateLimitError`, `LLMConnectionError`,
`LLMAuthError`, `LLMUnknownError`), plus `otherError` for any other
exception — notably the `RuntimeError("Empty response text")` raised on
a blank response. -/
inductive ErrClass where
  | rateLimit | connection | auth | unknown | otherError
deriving DecidableEq, Repr

structure ErrInfo where
  cls : ErrClass
  msg : Str
deriving DecidableEq, Repr

/-- Result of one `call_llm` attempt. -/
inductive Outcome where
  | ok (text : Str) : Outcome
  | err (e : ErrInfo) : Outcome
deriving DecidableEq, Repr

/-- Result of the per-fragment attempt loop: the highest attempt number
reached, the waits slept between attempts in order, and the final
`cleaned` text (`[]` on failure — the chunk's status is `FAILED` iff
`cleaned` is blank). -/
structure RetryResult where
  attemptsMade : Nat
  waits : List ℚ
  cleaned : Str
deriving DecidableEq, Repr

/-- Outcome of one attempt after the blank-response check: a blank
success is re-raised as a retryable generic error, exactly as the
source converts it to a `RuntimeError`. -/
inductive AttemptRes where
  | success (t : Str) : AttemptRes
  | failed (e : ErrInfo) : AttemptRes
deriving DecidableEq, Repr

def retryClassify : Outcome → AttemptRes
  | .ok t =>
    if (pyStrip t).isEmpty then .failed ⟨.otherError, "Empty response text".data⟩
    else .success t
  | .err e => .failed e

/-- `isinstance(e, (LLMAuthError, LLMUnknownError))` ⇒ not retriable;
every other exception is retried. -/
def retriableOf : ErrClass → Bool
  | .auth => false
  | .unknown => false
  | _ => true

/-- The provider-suggested wait, parsed from the message only for rate
limit errors (`isinstance(e, (LLMRateLimitError,))`). -/
def suggestedOf (e : ErrInfo) : Option ℚ :=
  match e.cls with
  | .rateLimit => extract_retry_after_seconds e.msg
  | _ => none

/-- `wait_for`: suggested + pause when a positive suggestion is
present, else the fixed pause. -/
def waitOf (e : ErrInfo) (pause : ℚ) : ℚ :=
  match suggestedOf e with
  | some sq => if 0 < sq then sq + pause else pause
  | none => pause

/-- The `while attempt_i <= attempts` loop of `main`, with the
`call_llm` result of attempt `n` abstracted as `outcomes n`. -/
def retryLoopGo (outcomes : Nat → Outcome) (attempts : Nat) (pause : ℚ) (ai : Nat) :
    RetryResult :=
  if attempts < ai then ⟨ai - 1, [], []⟩
  else
    match retryClassify (outcomes ai) with
    | .success t => ⟨ai, [], t⟩
    | .failed e =>
      if retriableOf e.cls = false ∨ attempts ≤ ai then ⟨ai, [], []⟩
      else
        let r := retryLoopGo outcomes attempts pause (ai + 1)
        ⟨r.attemptsMade, waitOf e pause :: r.waits, r.cleaned⟩
termination_by attempts + 1 - ai
decreasing_by
  rename_i h _
  simp at h
  omega

/-- The per-fragment retry loop, attempts numbered from 1. -/
def retryLoop (outcomes : Nat → Outcome) (attempts : Nat) (pause : ℚ) : RetryResult :=
  retryLoopGo outcomes attempts pause 1

/-! ### Context-overlap builder (`build_context_overlap`) -/

/-- Skip to just past the next `-->`; `none` when there is none. -/
def dropToClose : Str → Option Str
  | [] => none
  | c :: rest =>
    if c = '-' ∧ rest.take 2 = ['-', '>'] then some (rest.drop 2)
    else dropToClose rest

/-- `_HTML_COMMENT_RE.sub("", s)`: drop every non-greedy
`<!-- ... -->` region, leftmost first (an unclosed `<!--` cannot match
and is kept verbatim, and nothing after it can match either).  The
`inComment` mode skips to just past the next `-->` when one exists. -/
def stripCommentsGo : Bool → Str → Str
  | true, [] => []
  | true, '-' :: '-' :: '>' :: rest => stripCommentsGo false rest
  | true, _ :: rest => stripCommentsGo true rest
  | false, [] => []
  | false, '<' :: '!' :: '-' :: '-' :: rest =>
    if (dropToClose rest).isSome then stripCommentsGo true rest
    else '<' :: '!' :: '-' :: '-' :: rest
  | false, c :: rest => c :: stripCommentsGo false rest

def strip_all_html_comments (s : Str) : Str := stripCommentsGo false s

/-- `_tail_fit_by_sentences` inner loop: take trailing sentences while
they fit, skipping empty parts. -/
def tailSentGo (limit : Nat) : List Str → Nat → List Str → List Str
  | [], _, out => out
  | s :: rest, total, out =>
    if s.isEmpty then tailSentGo limit rest total out
    else
      let add := if total = 0 then s.length else 1 + s.length
      if total + add ≤ limit then tailSentGo limit rest (total + add) (s :: out)
      else out

/-- `_tail_fit_by_sentences(line, limit, sentence_delimiters)`. -/
def tail_fit_by_sentences (line : Str) (limit : Nat) (sd : List Char) : Str :=
  if limit = 0 ∨ line.isEmpty then []
  else
    let ds := if sd.isEmpty then sentenceDelims else sd
    let parts := splitAfterDelims ds line
    if parts.length ≤ 1 then []
    else List.intercalate [' '] (tailSentGo limit parts.reverse 0 [])

/-- `_tail_fit_by_words` inner loop: take trailing whitespace/word
tokens while they fit; when not even the last token fits, keep its
suffix of exactly `limit` characters. -/
def tailWordsGo (limit : Nat) : List Str → Nat → List Str → List Str
  | [], _, out => out
  | tok :: rest, total, out =>
    if total + tok.length ≤ limit then tailWordsGo limit rest (total + tok.length) (tok :: out)
    else if out.isEmpty ∧ limit < tok.length then [tok.drop (tok.length - limit)]
    else out

/-- `_tail_fit_by_words(text, limit)`. -/
def tail_fit_by_words (text : Str) (limit : Nat) : Str :=
  if limit = 0 ∨ text.isEmpty then []
  else pyStrip (tailWordsGo limit (tokenizeWs text).reverse 0 []).join

/-- Tail-line accumulation loop of `build_context_overlap`: whole lines
from the end while they fit, then a sentence- or word-level tail of the
first line that does not. -/
def ctxGo (maxChars : Nat) (sd : List Char) : List Str → Nat → List Str → List Str
  | [], _, acc => acc
  | ln :: rest, total, acc =>
    let add := if total = 0 then ln.length else 1 + ln.length
    if total + add ≤ maxChars then ctxGo maxChars sd rest (total + add) (ln :: acc)
    else
      let remain := maxChars - total
      let part := tail_fit_by_sentences ln remain sd
      let part' := if part.isEmpty then tail_fit_by_words ln remain else part
      if part'.isEmpty then acc else part' :: acc

/-- Source-text selection of `build_context_overlap`: the previous
cleaned text (comments stripped) when requested and non-blank,
otherwise the previous raw text. -/
def chosenSource (prevRaw prevCleaned : Str) (source : Str) : Str :=
  if source = "cleaned".data ∧ ¬ (pyStrip prevCleaned).isEmpty then
    strip_all_html_comments prevCleaned
  else prevRaw

/-- `build_context_overlap(prev_raw, prev_cleaned, source, max_chars,
sentence_delimiters)`. -/
def build_context_overlap (prevRaw prevCleaned : Str) (source : Str)
    (maxChars : Nat) (sd : List Char) : Str :=
  if maxChars = 0 ∨ source = "none".data then []
  else
    let srcText := chosenSource prevRaw prevCleaned source
    if srcText.isEmpty then []
    else
      let out := pyStrip (joinNl (ctxGo maxChars sd (splitlines srcText).reverse 0 []))
      if maxChars < out.length then out.drop (out.length - maxChars) else out

/-! ### Specification-side definitions used by the claim statements -/

/-- Texts of the newly introduced units sharing original line index `i`,
concatenated without separators. -/
def groupText (ns : List CUnit) (i : Nat) : Str :=
  ((ns.filter (fun u => u.orig == i)).map (·.text)).join

/-- The reconstruction property exactly as the specification states it
for one input: for each original line, its newly-introduced units
concatenated without separators give the line back verbatim (a line
kept whole has a single unit equal to it, and the pieces of a split
line must re-concatenate to it). -/
def ReconstructsExactly (lines : List Str) (cc oc : Nat) : Prop :=
  ∀ cs, chunk_text_line_preserving lines cc oc = some cs →
    ∀ i, i < lines.length → groupText (newUnitsOf cs) i = lines.getD i []

/-- Well-formedness of the chunker loop state: a pending queue drains
the line at the cursor and its pieces are the splitter's output for
that line. -/
def StOK (lines : List Str) (cc : Nat) (st : CState) : Prop :=
  match st.pending with
  | none => True
  | some p =>
    st.i < lines.length ∧ p.orig = st.i ∧ p.cursor < p.pieces.length ∧
      p.pieces = split_line_for_limit (lines.getD st.i []) cc

/-- Non-whitespace content still to be emitted for line `j` from a loop
state with cursor `i` and pending queue `pnd`. -/
def expectedDW (lines : List Str) (i : Nat) (pnd : Option Pending) (j : Nat) : Str :=
  match pnd with
  | some p =>
    if j = i then dropWs (p.pieces.drop p.cursor).join
    else if i < j ∧ j < lines.length then dropWs (lines.getD j []) else []
  | none => if i ≤ j ∧ j < lines.length then dropWs (lines.getD j []) else []

/-- Fuel still needed from line cursor `i` on. -/
def sumBudget (lines : List Str) (cc i : Nat) : Nat :=
  ((lines.drop i).map (lineBudget cc)).sum

/-- Termination measure of the chunker loop. -/
def muM (lines : List Str) (cc : Nat) (st : CState) : Nat :=
  match st.pending with
  | some p => (p.pieces.length - p.cursor) + sumBudget lines cc (st.i + 1)
  | none => sumBudget lines cc st.i

/-- Pending-queue well-formedness relative to a line cursor (the
pending component of `StOK`, stated on the raw pair). -/
def PendOK (lines : List Str) (cc i : Nat) : Option Pending → Prop
  | none => True
  | some p => i < lines.length ∧ p.orig = i ∧ p.cursor < p.pieces.length ∧
      p.pieces = split_line_for_limit (lines.getD i []) cc

/-- Termination measure on the raw cursor/pending pair. -/
def muAfter (lines : List Str) (cc i : Nat) : Option Pending → Nat
  | none => sumBudget lines cc i
  | some p => (p.pieces.length - p.cursor) + sumBudget lines cc (i + 1)

/-- Normalized window of trailing previous-text lines (`_dedup_try_lines`). -/
def prevNormOf (prevText : Str) (wc : Nat) : List Str :=
  (window_lines_from_end prevText wc).map normalize_for_match

/-- Normalized window of leading current-text lines (`_dedup_try_lines`). -/
def curNormOf (curText : Str) (wc : Nat) : List Str :=
  (window_lines_from_start curText wc).map normalize_for_match

/-- "The last `k` normalized lines of the previous window equal the
first `k` normalized lines of the current window." -/
def dedupMatchAt (prevNorm curNorm : List Str) (k : Nat) : Prop :=
  prevNorm.drop (prevNorm.length - k) = curNorm.take k

/-- Full behavioural specification of `dedup_overlapping_boundary` on
non-degenerate inputs: either no positive `k` matches and the current
text is returned unchanged with mode `none`, or the removed count is
the largest matching `k` within the windows, exactly the first `k`
un-normalized lines of the current text are removed, and the mode is
`lines`. -/
def DedupSpecProp (prev cur : Str) (wc : Nat) : Prop :=
  let pn := prevNormOf prev wc
  let cn := curNormOf cur wc
  let maxK := min pn.length cn.length
  let r := dedup_overlapping_boundary prev cur wc
  (r.2.1 = 0 ∧ r = (cur, 0, "none".data) ∧
    ∀ j, 0 < j → j ≤ maxK → ¬ dedupMatchAt pn cn j) ∨
  (0 < r.2.1 ∧ r.2.1 ≤ maxK ∧ dedupMatchAt pn cn r.2.1 ∧
    (∀ j, j ≤ maxK → dedupMatchAt pn cn j → j ≤ r.2.1) ∧
    r = (joinNl ((splitlines cur).drop r.2.1), r.2.1, "lines".data))

/-! ## Theorems -/

/-! ### Generic helper lemmas -/

theorem pyStrip_eq_nil_iff {s : Str} : pyStrip s = [] ↔ ∀ c ∈ s, pyIsSpace c := by
  unfold pyStrip
  rw [List.reverse_eq_nil_iff, List.dropWhile_eq_nil_iff]
  constructor
  · intro h c hc
    by_cases hmem : c ∈ s.dropWhile pyIsSpace
    · exact h c (by simpa using hmem)
    · have hsplit : s = s.takeWhile pyIsSpace ++ s.dropWhile pyIsSpace :=
        (List.takeWhile_append_dropWhile pyIsSpace s).symm
      rw [hsplit] at hc
      rcases List.mem_append.mp hc with h1 | h2
      · exact List.mem_takeWhile_imp h1
      · exact absurd h2 hmem
  · intro h c hc
    exact h c ((List.dropWhile_suffix pyIsSpace).mem (by simpa using hc))

theorem dropWs_append (a b : Str) : dropWs (a ++ b) = dropWs a ++ dropWs b := by
  simp [dropWs]

theorem dropWs_all_ws {s : Str} (h : ∀ c ∈ s, pyIsSpace c) : dropWs s = [] := by
  simp only [dropWs, List.filter_eq_nil_iff]
  intro c hc
  simp [h c hc]

/-! ### C10 — blank-only input produces no chunks -/

/-- C10: when no input line contains a non-whitespace character
(including the empty list of lines), `chunk_text_line_preserving`
returns the empty chunk list. -/
theorem blank_lines_yield_no_chunks (lines : List Str) (cc oc : Nat)
    (h : ∀ l ∈ lines, ∀ c ∈ l, pyIsSpace c) :
    chunk_text_line_preserving lines cc oc = some [] := by
  rw [chunk_text_line_preserving, if_pos]
  rw [List.all_eq_true]
  intro x hx
  rw [List.isEmpty_iff]
  exact pyStrip_eq_nil_iff.mpr (h x hx)

/-- Witness for C10 at a concrete blank-lines input. -/
theorem blank_lines_yield_no_chunks_witness :
    chunk_text_line_preserving ["".data, " \t ".data] 7 3 = some [] :=
  blank_lines_yield_no_chunks ["".data, " \t ".data] 7 3 (by decide)

/-! ### C5 — term coalescing is idempotent -/

theorem mapUpdate_fst_eq (m : TermMap) (j : Str) (f : List Str → List Str) :
    (mapUpdate m j f).map (·.1) = m.map (·.1) := by
  unfold mapUpdate
  rw [List.map_map]
  apply List.map_congr_left
  intro e _
  by_cases h : e.1 = j <;> simp [h]

theorem mapUpdate_length (m : TermMap) (j : Str) (f : List Str → List Str) :
    (mapUpdate m j f).length = m.length := by
  simp [mapUpdate]

theorem exists_key_mapUpdate {m : TermMap} {k : Str}
    (h : ∃ e ∈ m, e.1 = k) (j : Str) (f : List Str → List Str) :
    ∃ e ∈ mapUpdate m j f, e.1 = k := by
  obtain ⟨e, he, hk⟩ := h
  subst hk
  refine ⟨if e.1 = j then (e.1, f e.2) else e, ?_, ?_⟩
  · exact List.mem_map.mpr ⟨e, he, rfl⟩
  · by_cases hj : e.1 = j <;> simp [hj]

theorem mapErase_length {m : TermMap} {k : Str} (h : ∃ e ∈ m, e.1 = k) :
    (mapErase m k).length + 1 = m.length := by
  obtain ⟨e, he, hk⟩ := h
  unfold mapErase
  rw [List.length_eraseP_of_mem he (by simp [hk])]
  have : 1 ≤ m.length := List.length_pos.mpr (List.ne_nil_of_mem he)
  omega

theorem coalesceMergeAt_length {m m' : TermMap} {k : Str} {vs : List Str}
    (hk : ∃ e ∈ m, e.1 = k) (h : coalesceMergeAt m k vs = some m') :
    m'.length + 1 = m.length := by
  unfold coalesceMergeAt at h
  split at h
  · rename_i ej hej
    simp only [Option.some.injEq] at h
    subst h
    rw [mapErase_length (exists_key_mapUpdate hk ej.1 _), mapUpdate_length]
  · split at h
    · rename_i ev hev
      simp only [Option.some.injEq] at h
      subst h
      have hmem : ev ∈ m := List.mem_of_find?_eq_some hev
      rw [mapErase_length (exists_key_mapUpdate ⟨ev, hmem, rfl⟩ k _), mapUpdate_length]
    · exact absurd h (by simp)

theorem coalesceStepGo_length : ∀ (l : List (Str × List Str)) {m m' : TermMap},
    (∀ e ∈ l, e ∈ m) → coalesceStepGo m l = some m' → m'.length + 1 = m.length := by
  intro l
  induction l with
  | nil => intro m m' _ h; simp [coalesceStepGo] at h
  | cons e rest ih =>
    intro m m' hsub h
    rw [coalesceStepGo] at h
    split at h
    · rename_i m'' hm
      simp only [Option.some.injEq] at h
      subst h
      exact coalesceMergeAt_length ⟨e, hsub e (by simp), rfl⟩ hm
    · exact ih (fun x hx => hsub x (by simp [hx])) h

theorem coalesceStep_length {m m' : TermMap} (h : coalesceStep m = some m') :
    m'.length + 1 = m.length :=
  coalesceStepGo_length m (fun _ he => he) h

theorem coalesceLoop_fixed : ∀ (fuel : Nat) (m : TermMap), m.length ≤ fuel →
    coalesceStep (coalesceLoop fuel m) = none := by
  intro fuel
  induction fuel with
  | zero =>
    intro m hm
    have : m = [] := List.eq_nil_of_length_eq_zero (Nat.le_zero.mp hm)
    subst this
    rfl
  | succ f ih =>
    intro m hm
    rw [coalesceLoop]
    split
    · assumption
    · rename_i m' hm'
      exact ih m' (by have := coalesceStep_length hm'; omega)

theorem coalesceLoop_of_none {m : TermMap} (h : coalesceStep m = none) :
    ∀ fuel, coalesceLoop fuel m = m := by
  intro fuel
  cases fuel with
  | zero => rfl
  | succ f => rw [coalesceLoop, h]

theorem coalesce_fix_eq {r : TermMap} (hfix : coalesceStep r = none) :
    coalesce_term_map r = r := by
  unfold coalesce_term_map
  split
  · rename_i h
    exact (List.isEmpty_iff.mp h).symm
  · exact coalesceLoop_of_none hfix _

/-- C5: `coalesce_term_map` is idempotent:
`coalesce(coalesce(m)) = coalesce(m)` for every term map. -/
theorem coalesce_term_map_idempotent (m : TermMap) :
    coalesce_term_map (coalesce_term_map m) = coalesce_term_map m := by
  apply coalesce_fix_eq
  unfold coalesce_term_map
  split
  · rfl
  · exact coalesceLoop_fixed m.length m le_rfl

/-! ### C6 — diff is monotone under merge -/

theorem mem_insertVar_of_mem {vs : List Str} {x : Str} (v : Str) (h : x ∈ vs) :
    x ∈ insertVar vs v := by
  unfold insertVar
  split <;> simp [h]

theorem mem_insertVar_self (vs : List Str) (v : Str) : v ∈ insertVar vs v := by
  unfold insertVar
  split
  · assumption
  · simp

theorem mem_unionVars_left {x : Str} (ws : List Str) :
    ∀ (vs : List Str), x ∈ vs → x ∈ unionVars vs ws := by
  induction ws with
  | nil => intro vs h; exact h
  | cons w rest ih =>
    intro vs h
    exact ih _ (mem_insertVar_of_mem w h)

theorem mem_unionVars_right {x : Str} (ws : List Str) :
    ∀ (vs : List Str), x ∈ ws → x ∈ unionVars vs ws := by
  induction ws with
  | nil => intro vs h; cases h
  | cons w rest ih =>
    intro vs h
    rcases List.mem_cons.mp h with rfl | hx
    · exact mem_unionVars_left rest _ (mem_insertVar_self vs x)
    · exact ih _ hx

theorem find?_mapUpdate (m : TermMap) (j k : Str) (f : List Str → List Str) :
    (mapUpdate m j f).find? (fun e => e.1 = k) =
      ((m.find? (fun e => e.1 = k)).map (fun e => if e.1 = j then (e.1, f e.2) else e)) := by
  induction m with
  | nil => rfl
  | cons e rest ih =>
    have hrest : mapUpdate (e :: rest) j f =
        (if e.1 = j then (e.1, f e.2) else e) :: mapUpdate rest j f := by
      simp [mapUpdate]
    rw [hrest]
    by_cases hk : e.1 = k
    · subst hk
      by_cases hj : e.1 = j <;> simp [List.find?_cons, hj]
    · by_cases hj : e.1 = j
      · have hjk : ¬ j = k := by rw [← hj]; exact hk
        simp [List.find?_cons, hj, hjk, ih]
      · simp [List.find?_cons, hj, hk, ih]

theorem varsOf_mapUpdate_ne (m : TermMap) {j k : Str} (f : List Str → List Str)
    (h : k ≠ j) : varsOf (mapUpdate m j f) k = varsOf m k := by
  unfold varsOf mapFind
  rw [find?_mapUpdate]
  cases hf : m.find? (fun e => e.1 = k) with
  | none => rfl
  | some e =>
    have he : e.1 = k := by simpa using List.find?_some hf
    have : ¬ e.1 = j := by rw [he]; exact h
    simp [this]

theorem varsOf_mapUpdate_self {m : TermMap} {k : Str} {vs : List Str}
    (h : m.find? (fun e => e.1 = k) = some (k, vs)) (f : List Str → List Str) :
    varsOf (mapUpdate m k f) k = f vs := by
  unfold varsOf mapFind
  rw [find?_mapUpdate, h]
  simp

theorem varsOf_append_found {m : TermMap} {k : Str} {e : Str × List Str}
    (h : (m.find? (fun x => x.1 = k)).isSome) :
    varsOf (m ++ [e]) k = varsOf m k := by
  unfold varsOf mapFind
  rw [List.find?_append]
  cases hf : m.find? (fun x => x.1 = k) with
  | none => rw [hf] at h; simp at h
  | some a => simp

theorem varsOf_append_self {m : TermMap} {k : Str} {ws : List Str}
    (h : m.find? (fun x => x.1 = k) = none) :
    varsOf (m ++ [(k, ws)]) k = ws := by
  unfold varsOf mapFind
  rw [List.find?_append, h]
  simp [List.find?_cons]

/-- One fold step of `merge_term_maps`. -/
theorem merge_step_preserves_mem (into : TermMap) (e : Str × List Str) {k x : Str}
    (h : x ∈ varsOf into k) :
    x ∈ varsOf
      (if (into.find? (fun y => y.1 = e.1)).isSome then
        mapUpdate into e.1 (fun ws => unionVars ws e.2)
      else into ++ [(e.1, unionVars [] e.2)]) k := by
  split
  · rename_i hsome
    by_cases hk : k = e.1
    · subst hk
      cases hf : into.find? (fun y => y.1 = e.1) with
      | none => rw [hf] at hsome; simp at hsome
      | some a =>
        have hself : into.find? (fun y => y.1 = e.1) = some (e.1, a.2) := by
          have ha := List.find?_some hf
          rw [hf]; cases a; simp_all
        rw [varsOf_mapUpdate_self hself]
        apply mem_unionVars_left e.2 a.2
        unfold varsOf mapFind at h
        rw [hf] at h
        simpa using h
    · rw [varsOf_mapUpdate_ne into _ hk]
      exact h
  · rename_i hnone
    cases hf : into.find? (fun y => y.1 = k) with
    | none =>
      unfold varsOf mapFind at h
      rw [hf] at h
      simp at h
    | some a => rw [varsOf_append_found (by simp [hf])]; exact h

theorem merge_preserves_mem : ∀ (inc into : TermMap) {k x : Str},
    x ∈ varsOf into k → x ∈ varsOf (merge_term_maps into inc) k := by
  intro inc
  induction inc with
  | nil => intro into k x h; exact h
  | cons e rest ih =>
    intro into k x h
    unfold merge_term_maps
    rw [List.foldl_cons]
    exact ih _ (merge_step_preserves_mem into e h)

theorem merge_absorbs : ∀ (inc into : TermMap) {k x : Str} {vs : List Str},
    (k, vs) ∈ inc → x ∈ vs → x ∈ varsOf (merge_term_maps into inc) k := by
  intro inc
  induction inc with
  | nil => intro into k x vs h; cases h
  | cons e rest ih =>
    intro into k x vs hmem hx
    unfold merge_term_maps
    rw [List.foldl_cons]
    rcases List.mem_cons.mp hmem with heq | hrest
    · subst heq
      apply merge_preserves_mem rest
      split
      · rename_i hsome
        cases hf : into.find? (fun y => y.1 = k) with
        | none => rw [hf] at hsome; simp at hsome
        | some a =>
          have : into.find? (fun y => y.1 = k) = some (k, a.2) := by
            have := List.find?_some hf
            rw [hf]; cases a; simp_all
          rw [varsOf_mapUpdate_self this]
          exact mem_unionVars_right _ _ hx
      · rename_i hnone
        rw [varsOf_append_self (by revert hnone; cases into.find? (fun y => y.1 = k) <;> simp)]
        exact mem_unionVars_right _ _ hx
    · exact ih _ hrest hx

/-- C6: after merging the diff into the known map, re-computing the
diff yields the empty map. -/
theorem diff_term_maps_monotone (cur known : TermMap) :
    diff_term_maps cur (merge_term_maps known (diff_term_maps cur known)) = [] := by
  set known' := merge_term_maps known (diff_term_maps cur known) with hk'
  unfold diff_term_maps
  rw [List.filterMap_eq_nil_iff]
  intro e he
  have hall : ∀ v ∈ e.2, v ∈ varsOf known' e.1 := by
    intro v hv
    rw [hk']
    by_cases hold : v ∈ varsOf known e.1
    · exact merge_preserves_mem _ known hold
    · have hvfil : v ∈ (e.2.filter (fun x => x ∉ varsOf known e.1)).mergeSort strLe := by
        rw [List.mem_mergeSort]
        exact List.mem_filter.mpr ⟨hv, by simpa using hold⟩
      have hne : ((e.2.filter (fun x => x ∉ varsOf known e.1)).mergeSort strLe).isEmpty = false := by
        rcases hq : (e.2.filter (fun x => x ∉ varsOf known e.1)).mergeSort strLe with _ | _
        · rw [hq] at hvfil; cases hvfil
        · rfl
      have hmem : (e.1, (e.2.filter (fun x => x ∉ varsOf known e.1)).mergeSort strLe) ∈
          diff_term_maps cur known := by
        unfold diff_term_maps
        apply List.mem_filterMap.mpr
        exact ⟨e, he, by simp only [hne]; rfl⟩
      exact merge_absorbs _ known hmem hvfil
  have hfil : e.2.filter (fun v => v ∉ varsOf known' e.1) = [] :=
    List.filter_eq_nil_iff.mpr (by intro a ha; simpa using hall a ha)
  rw [hfil]
  simp [List.mergeSort_nil]

/-! ### C3 — boundary dedup removes the largest matching line run -/

theorem findBestGo_spec (p c : List Str) : ∀ n : Nat,
    (findBestGo p c n = 0 ∧ ∀ j, 0 < j → j ≤ n → ¬ dedupMatchAt p c j) ∨
    (0 < findBestGo p c n ∧ findBestGo p c n ≤ n ∧
      dedupMatchAt p c (findBestGo p c n) ∧
      ∀ j, j ≤ n → dedupMatchAt p c j → j ≤ findBestGo p c n) := by
  intro n
  induction n with
  | zero =>
    left
    exact ⟨rfl, by omega⟩
  | succ k ih =>
    rw [findBestGo]
    split
    · rename_i hmatch
      right
      refine ⟨by omega, le_rfl, hmatch, fun j hj _ => hj⟩
    · rename_i hnm
      rcases ih with ⟨h0, hall⟩ | ⟨h1, h2, h3, h4⟩
      · left
        refine ⟨h0, ?_⟩
        intro j hj hjle hm
        rcases Nat.lt_succ_iff_lt_or_eq.mp (Nat.lt_succ_of_le hjle) with hlt | heq
        · exact hall j hj (by omega) hm
        · subst heq
          exact hnm hm
      · right
        refine ⟨h1, Nat.le_succ_of_le h2, h3, ?_⟩
        intro j hjle hm
        rcases Nat.lt_succ_iff_lt_or_eq.mp (Nat.lt_succ_of_le hjle) with hlt | heq
        · exact h4 j (by omega) hm
        · subst heq
          exact absurd hm hnm

/-- C3: on non-empty texts and a positive window,
`dedup_overlapping_boundary` removes exactly the first `k`
un-normalized lines of the current text for the largest `k` whose
normalized window lines match, with mode `lines`; when no positive `k`
matches it returns the current text unchanged with `removed = 0` and
mode `none`. -/
theorem dedup_overlapping_boundary_spec (prev cur : Str) (wc : Nat)
    (hp : prev ≠ []) (hc : cur ≠ []) (hw : 0 < wc) :
    DedupSpecProp prev cur wc := by
  unfold DedupSpecProp
  have hguard : ¬ (prev.isEmpty ∨ cur.isEmpty ∨ wc = 0) := by
    simp [List.isEmpty_iff, hp, hc]
    omega
  have htry : dedup_try_lines prev cur wc =
      findBestGo (prevNormOf prev wc) (curNormOf cur wc)
        (min (prevNormOf prev wc).length (curNormOf cur wc).length) := rfl
  rcases findBestGo_spec (prevNormOf prev wc) (curNormOf cur wc)
      (min (prevNormOf prev wc).length (curNormOf cur wc).length) with
    ⟨h0, hall⟩ | ⟨h1, h2, h3, h4⟩
  · left
    have hr : dedup_overlapping_boundary prev cur wc = (cur, 0, "none".data) := by
      unfold dedup_overlapping_boundary
      rw [if_neg hguard, htry, h0]
      simp
    rw [hr]
    exact ⟨rfl, rfl, hall⟩
  · right
    have hr : dedup_overlapping_boundary prev cur wc =
        (joinNl ((splitlines cur).drop
            (findBestGo (prevNormOf prev wc) (curNormOf cur wc)
              (min (prevNormOf prev wc).length (curNormOf cur wc).length))),
          findBestGo (prevNormOf prev wc) (curNormOf cur wc)
            (min (prevNormOf prev wc).length (curNormOf cur wc).length),
          "lines".data) := by
      unfold dedup_overlapping_boundary
      rw [if_neg hguard, htry, if_pos h1]
    rw [hr]
    exact ⟨h1, h2, h3, h4, rfl⟩

/-- Witness for C3, at the example from the specification: previous
text ending `A\nB\nC`, current text starting `B\nC\nD`, window
covering three lines. -/
theorem dedup_overlapping_boundary_spec_witness :
    DedupSpecProp "A\nB\nC".data "B\nC\nD".data 9 ∧
    dedup_overlapping_boundary "A\nB\nC".data "B\nC\nD".data 9 =
      ("D".data, 2, "lines".data) :=
  ⟨dedup_overlapping_boundary_spec "A\nB\nC".data "B\nC\nD".data 9
      (by decide) (by decide) (by decide),
    by decide⟩

/-! ### C4 — retry policy of the per-fragment loop -/

theorem retryLoopGo_attempts_ge (o : Nat → Outcome) (a : Nat) (p : ℚ) :
    ∀ d ai, a - ai ≤ d → ai ≤ a → ai ≤ (retryLoopGo o a p ai).attemptsMade := by
  intro d
  induction d with
  | zero =>
    intro ai hd hle
    have hai : ai = a := by omega
    subst hai
    rw [retryLoopGo, if_neg (by omega)]
    split
    · exact le_rfl
    · rw [if_pos (Or.inr le_rfl)]
  | succ d ih =>
    intro ai hd hle
    rw [retryLoopGo, if_neg (by omega)]
    split
    · exact le_rfl
    · split
      · exact le_rfl
      · rename_i hcond
        have hlt : ai < a := by
          rcases not_or.mp hcond with ⟨_, h2⟩
          omega
        have := ih (ai + 1) (by omega) (by omega)
        simpa using Nat.le_of_succ_le this

/-- C4: in the per-fragment retry loop, an `Auth` or `Unknown` error on
the first attempt terminates the loop immediately as a failure after
exactly one attempt with no waits; a `RateLimit` or `Connection` error
with attempts remaining causes a retry whose wait is the
provider-suggested wait plus the fixed pause when a positive suggestion
is present, else the fixed pause alone. -/
theorem retry_policy :
    (∀ (o : Nat → Outcome) (a : Nat) (p : ℚ) (e : ErrInfo),
      1 ≤ a → o 1 = Outcome.err e →
      (e.cls = ErrClass.auth ∨ e.cls = ErrClass.unknown) →
      retryLoop o a p = ⟨1, [], []⟩) ∧
    (∀ (o : Nat → Outcome) (a : Nat) (p : ℚ) (e : ErrInfo),
      2 ≤ a → o 1 = Outcome.err e →
      (e.cls = ErrClass.rateLimit ∨ e.cls = ErrClass.connection) →
      2 ≤ (retryLoop o a p).attemptsMade ∧
      (retryLoop o a p).waits.head? = some (waitOf e p) ∧
      (∀ sq, suggestedOf e = some sq → 0 < sq → waitOf e p = sq + p) ∧
      (suggestedOf e = none → waitOf e p = p) ∧
      (∀ sq, suggestedOf e = some sq → ¬ 0 < sq → waitOf e p = p) ∧
      (e.cls = ErrClass.connection → suggestedOf e = none)) := by
  constructor
  · intro o a p e ha ho hcls
    unfold retryLoop
    rw [retryLoopGo, if_neg (by omega), ho]
    have hr : retriableOf e.cls = false := by
      rcases hcls with h | h <;> rw [h] <;> rfl
    simp only [retryClassify]
    rw [if_pos (Or.inl hr)]
  · intro o a p e ha ho hcls
    have hr : retriableOf e.cls = true := by
      rcases hcls with h | h <;> rw [h] <;> rfl
    have hres : retryLoop o a p =
        ⟨(retryLoopGo o a p 2).attemptsMade,
          waitOf e p :: (retryLoopGo o a p 2).waits,
          (retryLoopGo o a p 2).cleaned⟩ := by
      unfold retryLoop
      rw [retryLoopGo, if_neg (by omega), ho]
      simp only [retryClassify]
      rw [if_neg (by simp [hr]; omega)]
    refine ⟨?_, ?_, ?_, ?_, ?_, ?_⟩
    · rw [hres]
      exact retryLoopGo_attempts_ge o a p (a - 2) 2 (by omega) (by omega)
    · rw [hres]
      rfl
    · intro sq hsq hpos
      unfold waitOf
      rw [hsq]
      simp [hpos]
    · intro hnone
      unfold waitOf
      rw [hnone]
    · intro sq hsq hneg
      unfold waitOf
      rw [hsq]
      simp [hneg]
    · intro hconn
      unfold suggestedOf
      rw [hconn]

/-- Witness for C4: an `Auth` error on attempt 1 of 5 yields exactly
one attempt and a failed (blank) result; a `RateLimit` error with
suggested wait 17 s and fixed pause 2 s yields a 19 s wait before
attempt 2. -/
theorem retry_policy_witness :
    retryLoop (fun _ => Outcome.err ⟨ErrClass.auth, "no api key".data⟩) 5 2 = ⟨1, [], []⟩ ∧
    2 ≤ (retryLoop
      (fun _ => Outcome.err ⟨ErrClass.rateLimit, "please retry in 17s".data⟩) 5 2).attemptsMade ∧
    (retryLoop
      (fun _ => Outcome.err ⟨ErrClass.rateLimit, "please retry in 17s".data⟩) 5 2).waits.head? =
      some 19 := by
  have h1 := retry_policy.1 (fun _ => Outcome.err ⟨ErrClass.auth, "no api key".data⟩) 5 2
    ⟨ErrClass.auth, "no api key".data⟩ (by norm_num) rfl (Or.inl rfl)
  have h2 := retry_policy.2
    (fun _ => Outcome.err ⟨ErrClass.rateLimit, "please retry in 17s".data⟩) 5 2
    ⟨ErrClass.rateLimit, "please retry in 17s".data⟩ (by norm_num) rfl (Or.inl rfl)
  obtain ⟨hatt, hhead, hw, _, _, _⟩ := h2
  refine ⟨h1, hatt, ?_⟩
  rw [hhead]
  have hsug : suggestedOf ⟨ErrClass.rateLimit, "please retry in 17s".data⟩ = some 17 := by
    unfold suggestedOf
    decide
  rw [hw 17 hsug (by norm_num)]
  norm_num

/-! ### C2 — the chunk-size bound fails on an empty leading line -/

/-- C2 (code bug exhibit): with `chunk_chars = 2 ≥ 1`, the input
`["", "ab"]` produces a single chunk whose text `"\nab"` has length 3,
exceeding `chunk_chars`.  The `curr_len == 0` test in the filling loop
conflates "no units yet" with "only zero-length units", so the newline
separator following an empty line is never counted against the budget,
contradicting the function's own documented strict size limit. -/
theorem chunk_size_bound_failing :
    chunk_text_line_preserving ["".data, "ab".data] 2 0 =
      some [⟨"\nab".data, [⟨[], 0, false⟩, ⟨"ab".data, 1, false⟩], 0⟩] ∧
    ("\nab".data).length = 3 ∧ ¬ (("\nab".data).length ≤ 2) := by
  refine ⟨by decide, by decide, by decide⟩

/-! ### C9 — three short lines in one chunk -/

theorem split_line_for_limit_short {l : Str} {limit : Nat} (h : l.length ≤ limit) :
    split_line_for_limit l limit = [l] := by
  unfold split_line_for_limit
  rw [if_pos h]

/-- When everything left fits even with a separator charged for every
line, the filling loop adds all remaining lines whole. -/
theorem addLinesGo_all_fit (cc : Nat) : ∀ (ls : List Str) (i : Nat) (units : List CUnit)
    (currLen added : Nat),
    currLen + (ls.map (fun l => l.length + 1)).sum ≤ cc →
    addLinesGo cc ls i units currLen added =
      (i + ls.length, units ++ (List.enumFrom i ls).map (fun p => ⟨p.2, p.1, false⟩),
        added + ls.length, none) := by
  intro ls
  induction ls with
  | nil =>
    intro i units currLen added _
    simp [addLinesGo]
  | cons l rest ih =>
    intro i units currLen added hfit
    rw [addLinesGo]
    have hsum : currLen + (l.length + 1) + ((rest.map (fun x => x.length + 1)).sum) ≤ cc := by
      simp only [List.map_cons, List.sum_cons] at hfit
      omega
    have hnext : (if currLen = 0 then l.length else 1 + l.length) ≤ 1 + l.length := by
      split <;> omega
    rw [if_pos (by omega)]
    rw [ih _ _ _ _ (by omega)]
    simp only [List.enumFrom_cons, List.map_cons, List.length_cons]
    refine Prod.ext (by simp; omega) (Prod.ext (by simp) (Prod.ext (by simp; omega) rfl))

/-- C9 (counterexample): three lines of 20 characters each — every
line is ≤ 50 characters — yield two chunks under
`chunk_text_line_preserving(lines, 50, 10)`, not one, because the
joined length 62 exceeds the 50-character budget; the claim as stated
quantifies over all triples of lines each ≤ 50 characters. -/
theorem three_short_lines_counterexample :
    (∀ l ∈ (["aaaaaaaaaaaaaaaaaaaa".data, "bbbbbbbbbbbbbbbbbbbb".data,
        "cccccccccccccccccccc".data] : List Str), l.length ≤ 50) ∧
    (chunk_text_line_preserving ["aaaaaaaaaaaaaaaaaaaa".data,
        "bbbbbbbbbbbbbbbbbbbb".data, "cccccccccccccccccccc".data] 50 10).map
      List.length = some 2 := by
  refine ⟨by decide, by decide⟩

/-- C9 (amended): three lines each ≤ 50 characters *whose joined length
(with newline separators) is also ≤ 50* and at least one of which has
non-whitespace content produce exactly one chunk containing all three
lines, with `overlapUnitCount = 0`. -/
theorem three_short_lines_single_chunk (l1 l2 l3 : Str)
    (h1 : l1.length ≤ 50) (h2 : l2.length ≤ 50) (h3 : l3.length ≤ 50)
    (htot : joined_len [l1, l2, l3] ≤ 50)
    (hnb : ([l1, l2, l3].all (fun ln => (pyStrip ln).isEmpty)) = false) :
    chunk_text_line_preserving [l1, l2, l3] 50 10 =
      some [⟨joinNl [l1, l2, l3],
        [⟨l1, 0, false⟩, ⟨l2, 1, false⟩, ⟨l3, 2, false⟩], 0⟩] := by
  have hsum : l1.length + l2.length + l3.length + 2 ≤ 50 := by
    have := htot
    simp [joined_len] at this
    omega
  have hadd : addLinesGo 50 [l1, l2, l3] 0 [] 0 0 =
      (3, [⟨l1, 0, false⟩, ⟨l2, 1, false⟩, ⟨l3, 2, false⟩], 3, none) := by
    rw [addLinesGo]
    rw [if_pos (by simp; omega)]
    rw [addLinesGo_all_fit 50 [l2, l3] 1 _ _ _ (by simp; omega)]
    simp [List.enumFrom]
  have hfill : fillNew [l1, l2, l3] 50 ⟨0, none, []⟩ [] =
      ([⟨l1, 0, false⟩, ⟨l2, 1, false⟩, ⟨l3, 2, false⟩], 3, ⟨3, none, []⟩) := by
    unfold fillNew
    simp only []
    rw [show ([l1, l2, l3].drop 0) = [l1, l2, l3] from rfl]
    rw [show joined_len (([] : List CUnit).map (·.text)) = 0 from rfl]
    rw [hadd]
  have hstep : chunkStep [l1, l2, l3] 50 10 ⟨0, none, []⟩ =
      StepRes.emit
        ⟨joinNl [l1, l2, l3], [⟨l1, 0, false⟩, ⟨l2, 1, false⟩, ⟨l3, 2, false⟩], 0⟩
        ⟨3, none, [⟨l1, 0, false⟩, ⟨l2, 1, false⟩, ⟨l3, 2, false⟩]⟩ := by
    unfold chunkStep
    rw [if_neg (by simp)]
    simp only []
    rw [show computeOverlap [] (min 10 (50 - 1)) = [] from rfl]
    rw [hfill]
    simp [mkChunk]
  unfold chunk_text_line_preserving
  rw [if_neg (by rw [hnb]; exact Bool.false_ne_true)]
  have hf1 : lineBudget 50 l1 = 2 := by unfold lineBudget; rw [split_line_for_limit_short h1]; rfl
  have hf2 : lineBudget 50 l2 = 2 := by unfold lineBudget; rw [split_line_for_limit_short h2]; rfl
  have hf3 : lineBudget 50 l3 = 2 := by unfold lineBudget; rw [split_line_for_limit_short h3]; rfl
  rw [show (([l1, l2, l3].map (lineBudget 50)).sum + 1) = 7 by simp [hf1, hf2, hf3]]
  rw [chunkLoop, hstep]
  show (chunkLoop [l1, l2, l3] 50 10 6
      ⟨3, none, [⟨l1, 0, false⟩, ⟨l2, 1, false⟩, ⟨l3, 2, false⟩]⟩).map
      (⟨joinNl [l1, l2, l3], [⟨l1, 0, false⟩, ⟨l2, 1, false⟩, ⟨l3, 2, false⟩], 0⟩ :: ·) = _
  rw [show chunkLoop [l1, l2, l3] 50 10 6
      ⟨3, none, [⟨l1, 0, false⟩, ⟨l2, 1, false⟩, ⟨l3, 2, false⟩]⟩ = some [] by
    rw [chunkLoop]
    rw [show chunkStep [l1, l2, l3] 50 10
        ⟨3, none, [⟨l1, 0, false⟩, ⟨l2, 1, false⟩, ⟨l3, 2, false⟩]⟩ = StepRes.done by
      unfold chunkStep
      rw [if_pos (by simp)]]]
  rfl

/-- Witness for the amended C9 at three concrete short lines. -/
theorem three_short_lines_single_chunk_witness :
    chunk_text_line_preserving ["abc".data, "".data, "d e".data] 50 10 =
      some [⟨joinNl ["abc".data, "".data, "d e".data],
        [⟨"abc".data, 0, false⟩, ⟨"".data, 1, false⟩, ⟨"d e".data, 2, false⟩], 0⟩] :=
  three_short_lines_single_chunk "abc".data "".data "d e".data
    (by decide) (by decide) (by decide) (by decide) (by decide)

/-! ### C1 — reconstruction of the input from newly-introduced units -/

/-- C1 (counterexample): on the single line `"aa. bb."` with
`chunk_chars = 4`, the Splitter's sentence packing drops the space
between the sentences, so concatenating the split line's
newly-introduced pieces gives `"aa.bb."` — the original line is *not*
reconstructible by concatenation without separators. -/
theorem reconstructs_exactly_counterexample :
    ¬ ReconstructsExactly ["aa. bb.".data] 4 0 := by
  intro h
  have hres : chunk_text_line_preserving ["aa. bb.".data] 4 0 =
      some [⟨"aa.".data, [⟨"aa.".data, 0, true⟩], 0⟩,
            ⟨"bb.".data, [⟨"bb.".data, 0, true⟩], 0⟩] := by decide
  have := h _ hres 0 (by decide)
  revert this
  decide

/-! #### Splitter lemmas: piece bound, nonemptiness, content preservation -/

theorem charSplitGo_join (limit : Nat) : ∀ (s cur : Str) (room : Nat),
    (charSplitGo limit room cur s).join = cur.reverse ++ s := by
  intro s
  induction s with
  | nil =>
    intro cur room
    rw [charSplitGo]
    split <;> simp_all [List.isEmpty_iff]
  | cons c rest ih =>
    intro cur room
    match room with
    | 0 => simp [charSplitGo, ih]
    | room + 1 =>
      rw [charSplitGo, ih]
      simp

theorem charSplitGo_piece_le {limit : Nat} (hlim : 1 ≤ limit) : ∀ (s cur : Str) (room : Nat),
    cur.length + room = limit →
    ∀ p ∈ charSplitGo limit room cur s, p.length ≤ limit := by
  intro s
  induction s with
  | nil =>
    intro cur room hinv p hp
    rw [charSplitGo] at hp
    split at hp
    · cases hp
    · rcases List.mem_singleton.mp hp with rfl
      simp only [List.length_reverse]
      omega
  | cons c rest ih =>
    intro cur room hinv p hp
    match room, hp with
    | 0, hp =>
      rw [charSplitGo] at hp
      rcases List.mem_cons.mp hp with rfl | hp'
      · simp only [List.length_reverse]
        omega
      · exact ih [c] (limit - 1) (by simp only [List.length_singleton]; omega) p hp'
    | room + 1, hp =>
      rw [charSplitGo] at hp
      exact ih (c :: cur) room (by simp; omega) p hp

theorem charSplitGo_nonempty (limit : Nat) : ∀ (s cur : Str) (room : Nat),
    cur ≠ [] ∨ s ≠ [] → charSplitGo limit room cur s ≠ [] := by
  intro s
  induction s with
  | nil =>
    intro cur room h
    rcases h with h | h
    · rw [charSplitGo]
      split
      · simp_all [List.isEmpty_iff]
      · simp
    · simp at h
  | cons c rest ih =>
    intro cur room _
    match room with
    | 0 => simp [charSplitGo]
    | room + 1 => exact ih (c :: cur) room (Or.inl (by simp))

theorem charSplit_join {limit : Nat} (h : 1 ≤ limit) (s : Str) :
    (charSplit limit s).join = s := by
  unfold charSplit
  rw [if_neg (by omega)]
  simpa using charSplitGo_join limit s [] limit

theorem charSplit_piece_le {limit : Nat} (h : 1 ≤ limit) (s : Str) :
    ∀ p ∈ charSplit limit s, p.length ≤ limit := by
  unfold charSplit
  rw [if_neg (by omega)]
  exact charSplitGo_piece_le h s [] limit (by simp)

theorem charSplit_nonempty {limit : Nat} (hlim : 1 ≤ limit) {s : Str} (h : s ≠ []) :
    charSplit limit s ≠ [] := by
  unfold charSplit
  rw [if_neg (by omega)]
  exact charSplitGo_nonempty limit s [] limit (Or.inr h)

theorem tokenizeWsGo_join : ∀ (s cur : Str), (tokenizeWsGo cur s).join = cur.reverse ++ s := by
  intro s
  induction s with
  | nil =>
    intro cur
    match cur with
    | [] => rfl
    | d :: ds => simp [tokenizeWsGo]
  | cons c rest ih =>
    intro cur
    match cur with
    | [] => simpa using ih [c]
    | d :: ds =>
      rw [tokenizeWsGo]
      split
      · simpa using ih (c :: d :: ds)
      · simp [ih [c]]

theorem tokenizeWs_join (s : Str) : (tokenizeWs s).join = s := by
  simpa using tokenizeWsGo_join s []

theorem tokenizeWsGo_tok_ne_nil : ∀ (s cur : Str), ∀ t ∈ tokenizeWsGo cur s, t ≠ [] := by
  intro s
  induction s with
  | nil =>
    intro cur t ht
    match cur, ht with
    | [], ht => cases ht
    | d :: ds, ht =>
      rcases List.mem_singleton.mp (by simpa [tokenizeWsGo] using ht) with rfl
      simp
  | cons c rest ih =>
    intro cur t ht
    match cur, ht with
    | [], ht => exact ih [c] t ht
    | d :: ds, ht =>
      rw [tokenizeWsGo] at ht
      split at ht
      · exact ih (c :: d :: ds) t ht
      · rcases List.mem_cons.mp ht with rfl | ht'
        · simp
        · exact ih [c] t ht'

theorem packWordsGo_join {limit : Nat} (hlim : 1 ≤ limit) :
    ∀ (toks : List Str) (buf : Str) (pieces : List Str),
    (packWordsGo limit toks buf pieces).join = pieces.join ++ buf ++ toks.join := by
  intro toks
  induction toks with
  | nil =>
    intro buf pieces
    rw [packWordsGo]
    by_cases hbuf : buf = []
    · simp [hbuf]
    · simp [List.isEmpty_iff, hbuf]
  | cons tok rest ih =>
    intro buf pieces
    simp only [packWordsGo]
    by_cases hfit : buf.length + tok.length ≤ limit
    · rw [if_pos hfit, ih]
      simp
    · rw [if_neg hfit]
      by_cases hlong : limit < tok.length
      · rw [if_pos (by omega : tok.length > limit), ih]
        by_cases hbuf : buf = []
        · simp [hbuf, charSplit_join hlim]
        · simp [List.isEmpty_iff, hbuf, charSplit_join hlim]
      · rw [if_neg (by omega : ¬ tok.length > limit), ih]
        by_cases hbuf : buf = []
        · simp [hbuf]
        · simp [List.isEmpty_iff, hbuf]

theorem packWordsGo_piece_le {limit : Nat} (hlim : 1 ≤ limit) :
    ∀ (toks : List Str) (buf : Str) (pieces : List Str),
    buf.length ≤ limit → (∀ p ∈ pieces, p.length ≤ limit) →
    ∀ p ∈ packWordsGo limit toks buf pieces, p.length ≤ limit := by
  intro toks
  induction toks with
  | nil =>
    intro buf pieces hbuf hps p hp
    rw [packWordsGo] at hp
    rcases List.mem_append.mp hp with h | h
    · exact hps p h
    · split at h
      · cases h
      · rcases List.mem_singleton.mp h with rfl
        exact hbuf
  | cons tok rest ih =>
    intro buf pieces hbuf hps p hp
    simp only [packWordsGo] at hp
    have hflush : ∀ q ∈ pieces ++ (if buf.isEmpty then [] else [buf]), q.length ≤ limit := by
      intro q hq
      rcases List.mem_append.mp hq with h | h
      · exact hps q h
      · split at h
        · cases h
        · rcases List.mem_singleton.mp h with rfl
          exact hbuf
    by_cases hfit : buf.length + tok.length ≤ limit
    · rw [if_pos hfit] at hp
      exact ih _ _ (by simp only [List.length_append]; omega) hps p hp
    · rw [if_neg hfit] at hp
      by_cases hlong : limit < tok.length
      · rw [if_pos (by omega : tok.length > limit)] at hp
        refine ih _ _ (by simp) ?_ p hp
        intro q hq
        rcases List.mem_append.mp hq with h | h
        · exact hflush q h
        · exact charSplit_piece_le hlim tok q h
      · rw [if_neg (by omega : ¬ tok.length > limit)] at hp
        exact ih _ _ (by omega) hflush p hp

theorem packWordsGo_nonempty {limit : Nat} (hlim : 1 ≤ limit) :
    ∀ (toks : List Str) (buf : Str) (pieces : List Str),
    (∀ t ∈ toks, t ≠ []) →
    ((∃ t ∈ toks, t ≠ ([] : Str)) ∨ buf ≠ [] ∨ pieces ≠ []) →
    packWordsGo limit toks buf pieces ≠ [] := by
  intro toks
  induction toks with
  | nil =>
    intro buf pieces _ hne
    rw [packWordsGo]
    rcases hne with ⟨t, ht, _⟩ | hbuf | hpieces
    · cases ht
    · intro h
      rcases List.append_eq_nil.mp h with ⟨_, h2⟩
      rw [if_neg (by simpa [List.isEmpty_iff] using hbuf)] at h2
      exact absurd h2 (by simp)
    · intro h
      exact hpieces (List.append_eq_nil.mp h).1
  | cons tok rest ih =>
    intro buf pieces htoks _
    have htok : tok ≠ [] := htoks tok (by simp)
    have hrest : ∀ t ∈ rest, t ≠ [] := fun t ht => htoks t (by simp [ht])
    simp only [packWordsGo]
    by_cases hfit : buf.length + tok.length ≤ limit
    · rw [if_pos hfit]
      refine ih _ _ hrest (Or.inr (Or.inl ?_))
      intro h
      exact htok (List.append_eq_nil.mp h).2
    · rw [if_neg hfit]
      by_cases hlong : limit < tok.length
      · rw [if_pos (by omega : tok.length > limit)]
        refine ih _ _ hrest (Or.inr (Or.inr ?_))
        intro h
        exact charSplit_nonempty hlim htok (List.append_eq_nil.mp h).2
      · rw [if_neg (by omega : ¬ tok.length > limit)]
        exact ih _ _ hrest (Or.inr (Or.inl htok))

theorem split_by_words_join {limit : Nat} (hlim : 1 ≤ limit) (text : Str) :
    (split_by_words_with_char_fallback limit text).join = text := by
  unfold split_by_words_with_char_fallback
  rw [packWordsGo_join hlim]
  simp [tokenizeWs_join]

theorem split_by_words_piece_le {limit : Nat} (hlim : 1 ≤ limit) (text : Str) :
    ∀ p ∈ split_by_words_with_char_fallback limit text, p.length ≤ limit := by
  unfold split_by_words_with_char_fallback
  exact packWordsGo_piece_le hlim _ _ _ (by simp) (by simp)

theorem split_by_words_nonempty {limit : Nat} (hlim : 1 ≤ limit) {text : Str}
    (h : text ≠ []) : split_by_words_with_char_fallback limit text ≠ [] := by
  unfold split_by_words_with_char_fallback
  refine packWordsGo_nonempty hlim _ _ _ (tokenizeWsGo_tok_ne_nil text []) (Or.inl ?_)
  have hjoin := tokenizeWs_join text
  rcases htk : tokenizeWs text with _ | ⟨t, ts⟩
  · rw [htk] at hjoin
    simp at hjoin
    exact absurd hjoin.symm (fun hh => h hh.symm)
  · exact ⟨t, by simp, tokenizeWsGo_tok_ne_nil text [] t (by rw [show tokenizeWsGo [] text = tokenizeWs text from rfl, htk]; simp)⟩

theorem dropWs_cons_space {c : Char} (hc : pyIsSpace c = true) (s : Str) :
    dropWs (c :: s) = dropWs s := by
  simp [dropWs, hc]

theorem dropWs_cons_nonspace {c : Char} (hc : pyIsSpace c = false) (s : Str) :
    dropWs (c :: s) = c :: dropWs s := by
  simp [dropWs, hc]

theorem splitAfterDelimsGo_dropWs_join (delims : List Char) :
    ∀ (s cur : Str) (prev : Option Char) (inRun : Bool),
    ((splitAfterDelimsGo delims cur prev inRun s).map dropWs).join =
      dropWs cur.reverse ++ dropWs s := by
  intro s
  induction s with
  | nil =>
    intro cur prev inRun
    simp [splitAfterDelimsGo, dropWs]
  | cons c rest ih =>
    intro cur prev inRun
    rw [splitAfterDelimsGo]
    by_cases h1 : inRun ∧ pyIsSpace c
    · rw [if_pos h1, ih]
      rw [dropWs_cons_space h1.2]
    · rw [if_neg h1]
      by_cases h2 : pyIsSpace c ∧ (∃ d, prev = some d ∧ d ∈ delims)
      · rw [if_pos h2]
        simp only [List.map_cons]
        have hjc : (dropWs cur.reverse ::
            (splitAfterDelimsGo delims [] (some ' ') true rest).map dropWs).join =
            dropWs cur.reverse ++
              ((splitAfterDelimsGo delims [] (some ' ') true rest).map dropWs).join := rfl
        rw [hjc, ih, dropWs_cons_space h2.1]
        simp [dropWs]
      · rw [if_neg h2, ih]
        have : dropWs (c :: cur).reverse = dropWs cur.reverse ++ dropWs [c] := by
          simp only [List.reverse_cons]
          exact dropWs_append _ _
        rw [this]
        rcases hc : pyIsSpace c with _ | _
        · rw [dropWs_cons_nonspace hc]
          simp [dropWs, hc]
        · rw [dropWs_cons_space hc]
          simp [dropWs, hc]

theorem splitAfterDelims_dropWs_join (delims : List Char) (s : Str) :
    ((splitAfterDelims delims s).map dropWs).join = dropWs s := by
  simpa [dropWs] using splitAfterDelimsGo_dropWs_join delims s [] none false

/-- When more than one part is produced, the first part is non-empty
(it ends in the delimiter that triggered the cut); needs that no
delimiter is itself whitespace. -/
theorem splitAfterDelimsGo_head_nonempty (delims : List Char) :
    ∀ (s cur : Str) (prev : Option Char) (inRun : Bool),
    (∀ d, prev = some d → d ∈ delims → cur ≠ []) →
    1 < (splitAfterDelimsGo delims cur prev inRun s).length →
    ∀ part, (splitAfterDelimsGo delims cur prev inRun s).head? = some part → part ≠ [] := by
  intro s
  induction s with
  | nil =>
    intro cur prev inRun _ hlen
    rw [splitAfterDelimsGo] at hlen
    simp at hlen
  | cons c rest ih =>
    intro cur prev inRun hinv hlen part hpart
    rw [splitAfterDelimsGo] at hlen hpart
    by_cases h1 : inRun ∧ pyIsSpace c
    · rw [if_pos h1] at hlen hpart
      exact ih cur prev true hinv hlen part hpart
    · rw [if_neg h1] at hlen hpart
      by_cases h2 : pyIsSpace c ∧ (∃ d, prev = some d ∧ d ∈ delims)
      · rw [if_pos h2] at hpart
        obtain ⟨d, hprev, hd⟩ := h2.2
        have hcur := hinv d hprev hd
        simp only [List.head?_cons, Option.some.injEq] at hpart
        subst hpart
        simpa using hcur
      · rw [if_neg h2] at hlen hpart
        exact ih (c :: cur) (some c) false (fun d hd _ => by simp) hlen part hpart

theorem dropWs_join : ∀ (xs : List Str), dropWs xs.join = (xs.map dropWs).join := by
  intro xs
  induction xs with
  | nil => rfl
  | cons x rest ih =>
    have h1 : (x :: rest).join = x ++ rest.join := rfl
    have h2 : ((x :: rest).map dropWs).join = dropWs x ++ (rest.map dropWs).join := rfl
    rw [h1, h2, dropWs_append, ih]

theorem packSentencesGo_dropWs_join {limit : Nat} (hlim : 1 ≤ limit) :
    ∀ (parts : List Str) (buf : Str) (pieces : List Str),
    dropWs (packSentencesGo limit parts buf pieces).join =
      dropWs pieces.join ++ dropWs buf ++ dropWs parts.join := by
  intro parts
  induction parts with
  | nil =>
    intro buf pieces
    rw [packSentencesGo]
    by_cases hbuf : buf = []
    · simp [hbuf, dropWs]
    · simp [List.isEmpty_iff, hbuf, dropWs_join, dropWs, List.filter_append]
  | cons s rest ih =>
    intro buf pieces
    simp only [packSentencesGo]
    have hjoin_cons : dropWs (s :: rest).join = dropWs s ++ dropWs rest.join := by
      have : (s :: rest).join = s ++ rest.join := rfl
      rw [this, dropWs_append]
    by_cases hs : s = []
    · rw [if_pos (by simp [hs]), ih, hjoin_cons]
      simp [hs, dropWs]
    · rw [if_neg (by simpa [List.isEmpty_iff] using hs)]
      by_cases hfit : buf.length + (if buf.isEmpty then s.length else 1 + s.length) ≤ limit
      · rw [if_pos hfit, ih, hjoin_cons]
        by_cases hbuf : buf = []
        · simp [hbuf, dropWs]
        · rw [if_neg (by simpa [List.isEmpty_iff] using hbuf)]
          rw [dropWs_append, dropWs_cons_space (by rfl)]
          simp
      · rw [if_neg hfit]
        by_cases hlong : limit < s.length
        · rw [if_pos (by omega : s.length > limit), ih, hjoin_cons]
          by_cases hbuf : buf = []
          · simp [hbuf, dropWs, dropWs_join, List.map_append,
              split_by_words_join hlim]
          · simp only [List.isEmpty_iff, hbuf, if_neg]
            rw [if_neg (by simpa [List.isEmpty_iff] using hbuf)]
            simp [dropWs, dropWs_join, List.map_append, split_by_words_join hlim,
              List.filter_append]
        · rw [if_neg (by omega : ¬ s.length > limit), ih, hjoin_cons]
          by_cases hbuf : buf = []
          · simp [hbuf, dropWs]
          · rw [if_neg (by simpa [List.isEmpty_iff] using hbuf)]
            simp [dropWs, dropWs_join, List.map_append, List.filter_append]

theorem packSentencesGo_piece_le {limit : Nat} (hlim : 1 ≤ limit) :
    ∀ (parts : List Str) (buf : Str) (pieces : List Str),
    buf.length ≤ limit → (∀ p ∈ pieces, p.length ≤ limit) →
    ∀ p ∈ packSentencesGo limit parts buf pieces, p.length ≤ limit := by
  intro parts
  induction parts with
  | nil =>
    intro buf pieces hbuf hps p hp
    rw [packSentencesGo] at hp
    rcases List.mem_append.mp hp with h | h
    · exact hps p h
    · split at h
      · cases h
      · rcases List.mem_singleton.mp h with rfl
        exact hbuf
  | cons s rest ih =>
    intro buf pieces hbuf hps p hp
    simp only [packSentencesGo] at hp
    by_cases hs : s.isEmpty
    · rw [if_pos hs] at hp
      exact ih _ _ hbuf hps p hp
    · rw [if_neg hs] at hp
      have hflush : ∀ q ∈ pieces ++ (if buf.isEmpty then [] else [buf]), q.length ≤ limit := by
        intro q hq
        rcases List.mem_append.mp hq with h | h
        · exact hps q h
        · split at h
          · cases h
          · rcases List.mem_singleton.mp h with rfl
            exact hbuf
      by_cases hfit : buf.length + (if buf.isEmpty then s.length else 1 + s.length) ≤ limit
      · rw [if_pos hfit] at hp
        refine ih _ _ ?_ hps p hp
        by_cases hbe : buf.isEmpty
        · rw [if_pos hbe] at hfit ⊢
          simp [List.isEmpty_iff] at hbe
          omega
        · rw [if_neg hbe] at hfit ⊢
          simp only [List.length_append, List.length_cons]
          omega
      · rw [if_neg hfit] at hp
        by_cases hlong : limit < s.length
        · rw [if_pos (by omega : s.length > limit)] at hp
          refine ih _ _ (by simp) ?_ p hp
          intro q hq
          rcases List.mem_append.mp hq with h | h
          · exact hflush q h
          · exact split_by_words_piece_le hlim s q h
        · rw [if_neg (by omega : ¬ s.length > limit)] at hp
          exact ih _ _ (by omega) hflush p hp

theorem packSentencesGo_nonempty {limit : Nat} (hlim : 1 ≤ limit) :
    ∀ (parts : List Str) (buf : Str) (pieces : List Str),
    ((∃ s ∈ parts, s ≠ ([] : Str)) ∨ buf ≠ [] ∨ pieces ≠ []) →
    packSentencesGo limit parts buf pieces ≠ [] := by
  intro parts
  induction parts with
  | nil =>
    intro buf pieces hne
    rw [packSentencesGo]
    rcases hne with ⟨t, ht, _⟩ | hbuf | hpieces
    · cases ht
    · intro h
      rcases List.append_eq_nil.mp h with ⟨_, h2⟩
      rw [if_neg (by simpa [List.isEmpty_iff] using hbuf)] at h2
      exact absurd h2 (by simp)
    · intro h
      exact hpieces (List.append_eq_nil.mp h).1
  | cons s rest ih =>
    intro buf pieces hne
    simp only [packSentencesGo]
    by_cases hs : s.isEmpty
    · rw [if_pos hs]
      refine ih _ _ ?_
      rcases hne with ⟨t, ht, htne⟩ | h | h
      · rcases List.mem_cons.mp ht with rfl | ht'
        · exact absurd (List.isEmpty_iff.mp hs) htne
        · exact Or.inl ⟨t, ht', htne⟩
      · exact Or.inr (Or.inl h)
      · exact Or.inr (Or.inr h)
    · rw [if_neg hs]
      have hsne : s ≠ [] := by simpa [List.isEmpty_iff] using hs
      by_cases hfit : buf.length + (if buf.isEmpty then s.length else 1 + s.length) ≤ limit
      · rw [if_pos hfit]
        refine ih _ _ (Or.inr (Or.inl ?_))
        by_cases hbe : buf.isEmpty
        · rw [if_pos hbe]
          exact hsne
        · rw [if_neg hbe]
          simp
      · rw [if_neg hfit]
        by_cases hlong : limit < s.length
        · rw [if_pos (by omega : s.length > limit)]
          refine ih _ _ (Or.inr (Or.inr ?_))
          intro h
          rcases List.append_eq_nil.mp h with ⟨_, h2⟩
          exact split_by_words_nonempty hlim hsne h2
        · rw [if_neg (by omega : ¬ s.length > limit)]
          exact ih _ _ (Or.inr (Or.inl hsne))

/-- Every splitter piece fits the limit. -/
theorem split_piece_le {limit : Nat} (hlim : 1 ≤ limit) (l : Str) :
    ∀ p ∈ split_line_for_limit l limit, p.length ≤ limit := by
  unfold split_line_for_limit
  split
  · intro p hp
    rcases List.mem_singleton.mp hp with rfl
    assumption
  · show ∀ p ∈ (if (splitAfterDelims sentenceDelims l).length > 1 then
        packSentencesGo limit (splitAfterDelims sentenceDelims l) [] []
      else split_by_words_with_char_fallback limit l), p.length ≤ limit
    split
    · exact packSentencesGo_piece_le hlim _ _ _ (by simp) (by simp)
    · exact split_by_words_piece_le hlim l

/-- A non-empty line yields at least one piece. -/
theorem split_nonempty {limit : Nat} (hlim : 1 ≤ limit) {l : Str} (h : l ≠ []) :
    split_line_for_limit l limit ≠ [] := by
  unfold split_line_for_limit
  split
  · simp
  · show (if (splitAfterDelims sentenceDelims l).length > 1 then
        packSentencesGo limit (splitAfterDelims sentenceDelims l) [] []
      else split_by_words_with_char_fallback limit l) ≠ []
    split
    · rename_i hlen
      have hne : splitAfterDelims sentenceDelims l ≠ [] := by
        intro hnil
        rw [hnil] at hlen
        simp at hlen
      obtain ⟨part, hpart⟩ := Option.isSome_iff_exists.mp (List.head?_isSome.mpr hne)
      have hpne : part ≠ [] :=
        splitAfterDelimsGo_head_nonempty sentenceDelims l [] none false
          (by intro d hd; cases hd) (by simpa using hlen) part hpart
      refine packSentencesGo_nonempty hlim _ _ _ (Or.inl ⟨part, ?_, hpne⟩)
      exact List.mem_of_mem_head? hpart
    · exact split_by_words_nonempty hlim h

/-- Content preservation: the splitter's pieces carry exactly the
non-whitespace characters of the line, in order. -/
theorem split_dropWs_join {limit : Nat} (hlim : 1 ≤ limit) (l : Str) :
    dropWs (split_line_for_limit l limit).join = dropWs l := by
  unfold split_line_for_limit
  split
  · simp
  · show dropWs (if (splitAfterDelims sentenceDelims l).length > 1 then
        packSentencesGo limit (splitAfterDelims sentenceDelims l) [] []
      else split_by_words_with_char_fallback limit l).join = dropWs l
    split
    · rw [packSentencesGo_dropWs_join hlim]
      have h1 : dropWs ((splitAfterDelims sentenceDelims l).join) =
          ((splitAfterDelims sentenceDelims l).map dropWs).join := dropWs_join _
      rw [h1, splitAfterDelims_dropWs_join]
      rfl
    · rw [split_by_words_join hlim]

/-- The splitter never returns an empty piece list (for a positive
limit). -/
theorem split_ne_nil {limit : Nat} (hlim : 1 ≤ limit) (l : Str) :
    split_line_for_limit l limit ≠ [] := by
  rcases hl : l with _ | _
  · rw [split_line_for_limit_short (by simp)]
    simp
  · exact split_nonempty hlim (by simp)

/-! #### Chunker loop invariant machinery -/

theorem drop_cons_facts {lines : List Str} {i : Nat} {line : Str} {rest : List Str}
    (h : lines.drop i = line :: rest) :
    lines.getD i [] = line ∧ lines.drop (i + 1) = rest ∧ i < lines.length := by
  have hlt : i < lines.length := by
    by_contra hge
    rw [List.drop_eq_nil_of_le (by omega)] at h
    cases h
  refine ⟨?_, ?_, hlt⟩
  · have h1 : (lines.drop i).head? = lines[i]? := (List.head?_drop lines i).symm ▸ rfl
    rw [h] at h1
    simp at h1
    simp [List.getD, h1.symm]
  · have h2 : (lines.drop i).tail = lines.drop (i + 1) := by
      rw [← List.drop_drop]
      simp
    rw [h] at h2
    simpa using h2.symm

theorem sumBudget_cons {lines : List Str} {cc i : Nat} (h : i < lines.length) :
    sumBudget lines cc i = lineBudget cc (lines.getD i []) + sumBudget lines cc (i + 1) := by
  unfold sumBudget
  rcases hd : lines.drop i with _ | ⟨line, rest⟩
  · rw [List.drop_eq_nil_iff] at hd
    omega
  · obtain ⟨hline, hrest, _⟩ := drop_cons_facts hd
    rw [hrest, hline]
    simp

theorem groupText_nil (j : Nat) : groupText [] j = [] := rfl

theorem groupText_cons (u : CUnit) (ns : List CUnit) (j : Nat) :
    groupText (u :: ns) j = (if u.orig = j then u.text else []) ++ groupText ns j := by
  unfold groupText
  by_cases h : u.orig = j
  · simp [h]
  · simp [h]

theorem groupText_append (xs ys : List CUnit) (j : Nat) :
    groupText (xs ++ ys) j = groupText xs j ++ groupText ys j := by
  unfold groupText
  simp [List.filter_append]

theorem expectedDW_none_eq (lines : List Str) (i j : Nat) :
    expectedDW lines i none j =
      (if i ≤ j ∧ j < lines.length then dropWs (lines.getD j []) else []) := rfl

theorem expectedDW_some_eq (lines : List Str) (i : Nat) (p : Pending) (j : Nat) :
    expectedDW lines i (some p) j =
      (if j = i then dropWs (p.pieces.drop p.cursor).join
        else if i < j ∧ j < lines.length then dropWs (lines.getD j []) else []) := rfl

theorem expectedDW_none_ne {lines : List Str} {i j : Nat} (h : j ≠ i) :
    expectedDW lines i none j = expectedDW lines (i + 1) none j := by
  rw [expectedDW_none_eq, expectedDW_none_eq]
  by_cases h1 : i ≤ j ∧ j < lines.length
  · rw [if_pos h1, if_pos (by omega)]
  · rw [if_neg h1, if_neg (by omega)]

theorem expectedDW_eq_of_lt {lines : List Str} {i : Nat} {pnd : Option Pending} {j : Nat}
    (h : j < i) : expectedDW lines i pnd j = [] := by
  match pnd with
  | none => rw [expectedDW_none_eq, if_neg (by omega)]
  | some p => rw [expectedDW_some_eq, if_neg (by omega), if_neg (by omega)]

theorem expectedDW_none_at {lines : List Str} {i : Nat} (h : i < lines.length) :
    expectedDW lines i none i = dropWs (lines.getD i []) := by
  rw [expectedDW_none_eq, if_pos (by omega)]

theorem expectedDW_some_ne {lines : List Str} {i : Nat} {p q : Pending} {j : Nat}
    (h : j ≠ i) : expectedDW lines i (some p) j = expectedDW lines i (some q) j := by
  rw [expectedDW_some_eq, expectedDW_some_eq, if_neg h, if_neg h]

theorem expectedDW_some_none_ne {lines : List Str} {i : Nat} {p : Pending} {j : Nat}
    (h : j ≠ i) : expectedDW lines i (some p) j = expectedDW lines (i + 1) none j := by
  rw [expectedDW_some_eq, expectedDW_none_eq, if_neg h]
  by_cases h1 : i < j ∧ j < lines.length
  · rw [if_pos h1, if_pos (by omega)]
  · rw [if_neg h1, if_neg (by omega)]

theorem expectedDW_none_some {lines : List Str} {i j : Nat} (p : Pending) (h : j ≠ i) :
    expectedDW lines i none j = expectedDW lines i (some p) j := by
  rw [expectedDW_none_eq, expectedDW_some_eq, if_neg h]
  by_cases h1 : i ≤ j ∧ j < lines.length
  · rw [if_pos h1, if_pos ⟨by omega, h1.2⟩]
  · rw [if_neg h1, if_neg (by omega)]

theorem groupText_eq_nil {ns : List CUnit} {j : Nat} (h : ∀ u ∈ ns, u.orig ≠ j) :
    groupText ns j = [] := by
  unfold groupText
  rw [List.filter_eq_nil_iff.mpr (fun u hu => by simp [h u hu])]
  rfl

theorem stOK_iff (lines : List Str) (cc : Nat) (st : CState) :
    StOK lines cc st ↔ PendOK lines cc st.i st.pending := by
  cases h : st.pending <;> simp [StOK, PendOK, h]

theorem muM_eq (lines : List Str) (cc : Nat) (st : CState) :
    muM lines cc st = muAfter lines cc st.i st.pending := by
  cases h : st.pending <;> simp [muM, muAfter, h]

theorem muM_prevUnits (lines : List Str) (cc : Nat) (st : CState) (pu : List CUnit) :
    muM lines cc { st with prevUnits := pu } = muM lines cc st := rfl

theorem mkChunk_units (units : List CUnit) (novl : Nat) :
    (mkChunk units novl).units = units := rfl

theorem mkChunk_overlapUnits (units : List CUnit) (novl : Nat) :
    (mkChunk units novl).overlapUnits = novl := rfl

/-- Full invariant of the inner whole-line filling loop: it appends a
batch of new units, counts them in `added`, keeps the pending queue
well-formed, pays for its work out of the fuel budget, emits only
in-range units (whole lines verbatim), preserves the remaining
non-whitespace content per line, and makes progress when it starts from
an empty chunk. -/
theorem addLinesGo_spec {cc : Nat} (hcc : 1 ≤ cc) (lines : List Str) :
    ∀ (ls : List Str) (i : Nat) (units : List CUnit) (currLen added : Nat),
      lines.drop i = ls →
      ∃ (i' : Nat) (batch : List CUnit) (pnd' : Option Pending),
        addLinesGo cc ls i units currLen added =
          (i', units ++ batch, added + batch.length, pnd') ∧
        i ≤ i' ∧
        PendOK lines cc i' pnd' ∧
        muAfter lines cc i' pnd' + batch.length ≤ sumBudget lines cc i ∧
        (∀ u ∈ batch, i ≤ u.orig ∧ u.orig < lines.length ∧
          (u.split = false → u.text = lines.getD u.orig [])) ∧
        (∀ j, expectedDW lines i none j =
          dropWs (groupText batch j) ++ expectedDW lines i' pnd' j) ∧
        (added = 0 → currLen = 0 → i < lines.length → 1 ≤ batch.length) ∧
        (batch = [] → added = 0 → i < lines.length → pnd' ≠ none) := by
  intro ls
  induction ls with
  | nil =>
    intro i units currLen added hdrop
    rw [List.drop_eq_nil_iff] at hdrop
    refine ⟨i, [], none, by simp [addLinesGo], Nat.le_refl i, trivial, by simp [muAfter],
      by simp, fun j => rfl, ?_, ?_⟩
    · intro _ _ hi
      exact absurd hi (Nat.not_lt.mpr hdrop)
    · intro _ _ hi
      exact absurd hi (Nat.not_lt.mpr hdrop)
  | cons line rest ih =>
    intro i units currLen added hdrop
    obtain ⟨hline, hrest, hilen⟩ := drop_cons_facts hdrop
    by_cases hfit : currLen + (if currLen = 0 then line.length else 1 + line.length) ≤ cc
    · -- the whole line fits: take it and recurse
      obtain ⟨i', batch', pnd', heq, hle, hpok, hmu, hunit, hcontent, -, -⟩ :=
        ih (i + 1) (units ++ [⟨line, i, false⟩])
          (currLen + (if currLen = 0 then line.length else 1 + line.length)) (added + 1) hrest
      refine ⟨i', ⟨line, i, false⟩ :: batch', pnd', ?_, by omega, hpok, ?_, ?_, ?_,
        by intros; simp only [List.length_cons]; omega,
        by intro h _ _; exact absurd h (List.cons_ne_nil _ _)⟩
      · simp only [addLinesGo]
        rw [if_pos hfit, heq]
        refine Prod.ext rfl (Prod.ext (by simp) (Prod.ext ?_ rfl))
        simp only [List.length_cons]
        omega
      · rw [sumBudget_cons hilen]
        have h1 : 1 ≤ lineBudget cc (lines.getD i []) := by
          unfold lineBudget
          omega
        simp only [List.length_cons]
        omega
      · intro u hu
        rcases List.mem_cons.mp hu with h | h
        · subst h
          exact ⟨Nat.le_refl i, hilen, fun _ => hline.symm⟩
        · obtain ⟨h1, h2, h3⟩ := hunit u h
          exact ⟨by omega, h2, h3⟩
      · intro j
        by_cases hj : j = i
        · subst hj
          have hb' : groupText batch' j = [] :=
            groupText_eq_nil (fun u hu => by have := (hunit u hu).1; omega)
          rw [expectedDW_none_at hilen, hline, groupText_cons, hb',
            expectedDW_eq_of_lt (show j < i' by omega)]
          simp
        · rw [expectedDW_none_ne hj, hcontent j, groupText_cons]
          simp [Ne.symm hj]
    · by_cases hadd : 0 < added
      · -- the line does not fit but the chunk already has new units: stop here
        refine ⟨i, [], none, ?_, Nat.le_refl i, trivial, by simp [muAfter], by simp,
          fun j => rfl, ?_, ?_⟩
        · simp only [addLinesGo]
          rw [if_neg hfit, if_pos hadd]
          simp
        · intro h0 _ _
          omega
        · intro _ h0 _
          exact absurd h0 (by omega)
      · -- first line of an empty chunk that does not fit: split it
        have hadd0 : added = 0 := by omega
        subst hadd0
        obtain ⟨p0, ps, hps⟩ := List.exists_cons_of_ne_nil (split_ne_nil hcc line)
        by_cases hfit0 : currLen + (if currLen = 0 then p0.length else 1 + p0.length) ≤ cc
        · by_cases hone : ps = []
          · -- single piece, and it fits: line fully consumed
            subst hone
            refine ⟨i + 1, [⟨p0, i, true⟩], none, ?_, by omega, trivial, ?_, ?_, ?_,
              by intros; simp, by intro h _ _; exact absurd h (List.cons_ne_nil _ _)⟩
            · simp only [addLinesGo, hps]
              rw [if_neg hfit, if_neg (show ¬ ((0:Nat) > 0) by omega), if_pos hfit0,
                if_pos (show ([p0] : List Str).length ≤ 1 by simp)]
              simp
            · rw [sumBudget_cons hilen, hline]
              simp only [muAfter, List.length_singleton, lineBudget]
              omega
            · intro u hu
              rcases List.mem_singleton.mp hu with rfl
              exact ⟨Nat.le_refl i, hilen, by simp⟩
            · intro j
              by_cases hj : j = i
              · subst hj
                have hjoin : dropWs line = dropWs p0 := by
                  have h1 := split_dropWs_join hcc line
                  rw [hps, show ([p0] : List Str).join = p0 ++ [] from rfl] at h1
                  simp at h1
                  exact h1.symm
                rw [expectedDW_none_at hilen, hline, hjoin, groupText_cons,
                  expectedDW_eq_of_lt (Nat.lt_succ_self j)]
                simp [groupText_nil]
              · rw [expectedDW_none_ne hj]
                simp [groupText_cons, groupText_nil, Ne.symm hj, dropWs]
          · -- first of several pieces fits: start draining the queue
            refine ⟨i, [⟨p0, i, true⟩], some ⟨p0 :: ps, 1, i⟩, ?_, Nat.le_refl i, ?_, ?_, ?_,
              ?_, by intros; simp, by intro h _ _; exact absurd h (List.cons_ne_nil _ _)⟩
            · simp only [addLinesGo, hps]
              rw [if_neg hfit, if_neg (show ¬ ((0:Nat) > 0) by omega), if_pos hfit0,
                if_neg (show ¬ (p0 :: ps).length ≤ 1 by
                  have := List.length_pos.mpr hone
                  simp only [List.length_cons]
                  omega)]
              simp
            · simp only [PendOK]
              refine ⟨hilen, trivial, ?_, by rw [hline]; exact hps.symm⟩
              show 1 < (p0 :: ps).length
              have := List.length_pos.mpr hone
              simp only [List.length_cons]
              omega
            · rw [sumBudget_cons hilen, hline]
              simp only [muAfter, lineBudget, List.length_singleton]
              rw [hps]
              simp only [List.length_cons]
              omega
            · intro u hu
              rcases List.mem_singleton.mp hu with rfl
              exact ⟨Nat.le_refl i, hilen, by simp⟩
            · intro j
              by_cases hj : j = i
              · subst hj
                have hj2 : dropWs line = dropWs p0 ++ dropWs ps.join := by
                  have h1 := split_dropWs_join hcc line
                  rw [hps, show (p0 :: ps).join = p0 ++ ps.join from rfl,
                    dropWs_append] at h1
                  exact h1.symm
                rw [expectedDW_none_at hilen, hline, hj2, expectedDW_some_eq, if_pos rfl,
                  groupText_cons]
                simp [groupText_nil]
              · rw [expectedDW_none_some ⟨p0 :: ps, 1, i⟩ hj, groupText_cons]
                simp [groupText_nil, Ne.symm hj, dropWs]
        · -- not even the first piece fits on top of the overlap: park the queue
          refine ⟨i, [], some ⟨p0 :: ps, 0, i⟩, ?_, Nat.le_refl i, ?_, ?_, by simp, ?_,
            ?_, by intro _ _ _; simp⟩
          · simp only [addLinesGo, hps]
            rw [if_neg hfit, if_neg (show ¬ ((0:Nat) > 0) by omega), if_neg hfit0]
            simp
          · simp only [PendOK]
            exact ⟨hilen, trivial, by simp, by rw [hline]; exact hps.symm⟩
          · rw [sumBudget_cons hilen, hline]
            simp only [muAfter, lineBudget, List.length_nil]
            rw [hps]
            omega
          · intro j
            by_cases hj : j = i
            · subst hj
              have hj2 : dropWs line = dropWs ((p0 :: ps).join) := by
                have h1 := split_dropWs_join hcc line
                rw [hps] at h1
                exact h1.symm
              rw [expectedDW_none_at hilen, hline, hj2, expectedDW_some_eq, if_pos rfl]
              simp [groupText_nil, dropWs]
            · rw [expectedDW_none_some ⟨p0 :: ps, 0, i⟩ hj]
              simp [groupText_nil, dropWs]
          · intro _ hcur0 _
            exfalso
            have hp0 : p0.length ≤ cc :=
              split_piece_le hcc line p0 (by rw [hps]; exact List.mem_cons_self _ _)
            rw [hcur0] at hfit0
            simp at hfit0
            omega

/-- Invariant of one fill attempt (`fillNew`): same shape as
`addLinesGo_spec`, lifted to the loop state, plus the guarantee that a
fill starting from an empty chunk always places at least one unit. -/
theorem fillNew_spec {lines : List Str} {cc : Nat} (hcc : 1 ≤ cc) (st : CState)
    (ov : List CUnit) (hst : StOK lines cc st) :
    ∃ (batch : List CUnit) (st' : CState),
      fillNew lines cc st ov = (ov ++ batch, batch.length, st') ∧
      st'.prevUnits = st.prevUnits ∧
      StOK lines cc st' ∧
      muM lines cc st' + batch.length ≤ muM lines cc st ∧
      (∀ u ∈ batch, u.orig < lines.length ∧
        (u.split = false → u.text = lines.getD u.orig [])) ∧
      (∀ j, expectedDW lines st.i st.pending j =
        dropWs (groupText batch j) ++ expectedDW lines st'.i st'.pending j) ∧
      (joined_len (ov.map (fun u => u.text)) = 0 →
        ¬(lines.length ≤ st.i ∧ st.pending = none) → 1 ≤ batch.length) ∧
      (batch.length = 0 → ¬(lines.length ≤ st.i ∧ st.pending = none) →
        ¬(lines.length ≤ st'.i ∧ st'.pending = none)) := by
  rcases hp : st.pending with _ | p
  · -- no pending queue: fill with whole lines
    obtain ⟨i', batch, pnd', heq, hle, hpok, hmu, hunit, hcontent, hprog, hlast⟩ :=
      addLinesGo_spec hcc lines (lines.drop st.i) st.i ov
        (joined_len (ov.map (fun u => u.text))) 0 rfl
    refine ⟨batch, { st with i := i', pending := pnd' }, ?_, rfl, ?_, ?_, ?_, ?_, ?_, ?_⟩
    · simp only [fillNew, hp]
      rw [heq]
      simp
    · exact (stOK_iff lines cc _).mpr hpok
    · have h1 : muM lines cc { st with i := i', pending := pnd' } =
          muAfter lines cc i' pnd' := by rw [muM_eq]
      have h2 : muM lines cc st = sumBudget lines cc st.i := by
        rw [muM_eq, hp]
        simp [muAfter]
      rw [h1, h2]
      exact hmu
    · exact fun u hu => ⟨(hunit u hu).2.1, (hunit u hu).2.2⟩
    · intro j
      simpa using hcontent j
    · intro hcur hnd
      have hi : st.i < lines.length := by
        rcases Nat.lt_or_ge st.i lines.length with h | h
        · exact h
        · exact absurd ⟨h, rfl⟩ hnd
      exact hprog rfl hcur hi
    · intro hb hnd
      have hi : st.i < lines.length := by
        rcases Nat.lt_or_ge st.i lines.length with h | h
        · exact h
        · exact absurd ⟨h, rfl⟩ hnd
      have hnone := hlast (List.length_eq_zero.mp hb) rfl hi
      intro hc
      exact hnone hc.2
  · -- pending queue: place (at most) one queued piece
    have hpok0 : PendOK lines cc st.i (some p) := by
      have h := (stOK_iff lines cc st).mp hst
      rwa [hp] at h
    obtain ⟨hlt, horig, hcur, hpieces⟩ := hpok0
    have hplen : (p.pieces.getD p.cursor []).length ≤ cc := by
      apply split_piece_le hcc (lines.getD st.i [])
      rw [← hpieces, List.getD_eq_getElem p.pieces [] hcur]
      exact List.getElem_mem hcur
    by_cases hfitp : joined_len (ov.map (fun u => u.text)) +
        (if joined_len (ov.map (fun u => u.text)) = 0 then (p.pieces.getD p.cursor []).length
          else 1 + (p.pieces.getD p.cursor []).length) ≤ cc
    · by_cases hend : p.cursor + 1 ≥ p.pieces.length
      · -- last queued piece: drain the queue and advance the cursor
        refine ⟨[⟨p.pieces.getD p.cursor [], p.orig, true⟩],
          { st with pending := none, i := st.i + 1 }, ?_, rfl, True.intro, ?_, ?_, ?_,
          by intro _ _; simp, by intro hb; simp at hb⟩
        · simp only [fillNew, hp]
          rw [if_pos hfitp, if_pos hend]
          simp
        · have h1 : muM lines cc { st with pending := none, i := st.i + 1 } =
              sumBudget lines cc (st.i + 1) := by
            rw [muM_eq]
            simp [muAfter]
          have h2 : muM lines cc st =
              (p.pieces.length - p.cursor) + sumBudget lines cc (st.i + 1) := by
            rw [muM_eq, hp]
            simp [muAfter]
          rw [h1, h2]
          simp only [List.length_singleton]
          omega
        · intro u hu
          rcases List.mem_singleton.mp hu with rfl
          refine ⟨?_, by simp⟩
          show p.orig < lines.length
          omega
        · intro j
          by_cases hj : j = st.i
          · subst hj
            have hdropp : p.pieces.drop p.cursor = [p.pieces.getD p.cursor []] := by
              rw [List.getD_eq_getElem p.pieces [] hcur, List.drop_eq_getElem_cons hcur,
                List.drop_eq_nil_of_le (by omega)]
            have hLHS : dropWs (([p.pieces.getD p.cursor []] : List Str).join) =
                dropWs (p.pieces.getD p.cursor []) := by
              rw [show ([p.pieces.getD p.cursor []] : List Str).join =
                  p.pieces.getD p.cursor [] ++ [] from rfl]
              simp
            rw [expectedDW_some_eq, if_pos rfl, hdropp, hLHS]
            simp [groupText_cons, groupText_nil, horig,
              expectedDW_eq_of_lt (Nat.lt_succ_self st.i)]
          · have hne : p.orig ≠ j := by omega
            rw [expectedDW_some_none_ne hj]
            simp [groupText_cons, groupText_nil, hne, dropWs]
      · -- queued piece placed, queue continues
        refine ⟨[⟨p.pieces.getD p.cursor [], p.orig, true⟩],
          { st with pending := some { p with cursor := p.cursor + 1 } }, ?_, rfl, ?_, ?_,
          ?_, ?_, by intro _ _; simp, by intro hb; simp at hb⟩
        · simp only [fillNew, hp]
          rw [if_pos hfitp, if_neg hend]
          simp
        · refine (stOK_iff lines cc _).mpr ?_
          simp only [PendOK]
          refine ⟨hlt, horig, ?_, hpieces⟩
          show p.cursor + 1 < p.pieces.length
          omega
        · have h1 : muM lines cc
              ({ st with pending := some { p with cursor := p.cursor + 1 } }) =
              (p.pieces.length - (p.cursor + 1)) + sumBudget lines cc (st.i + 1) := by
            rw [muM_eq]
            simp [muAfter]
          have h2 : muM lines cc st =
              (p.pieces.length - p.cursor) + sumBudget lines cc (st.i + 1) := by
            rw [muM_eq, hp]
            simp [muAfter]
          rw [h1, h2]
          simp only [List.length_singleton]
          omega
        · intro u hu
          rcases List.mem_singleton.mp hu with rfl
          refine ⟨?_, by simp⟩
          show p.orig < lines.length
          omega
        · intro j
          by_cases hj : j = st.i
          · subst hj
            have hdropc : p.pieces.drop p.cursor =
                (p.pieces.getD p.cursor []) :: p.pieces.drop (p.cursor + 1) := by
              rw [List.getD_eq_getElem p.pieces [] hcur]
              exact List.drop_eq_getElem_cons hcur
            rw [expectedDW_some_eq, if_pos rfl, hdropc,
              show ((p.pieces.getD p.cursor []) :: p.pieces.drop (p.cursor + 1)).join =
                p.pieces.getD p.cursor [] ++ (p.pieces.drop (p.cursor + 1)).join from rfl,
              dropWs_append]
            simp [groupText_cons, groupText_nil, horig, expectedDW_some_eq]
          · have hne : p.orig ≠ j := by omega
            rw [@expectedDW_some_ne lines st.i p ⟨p.pieces, p.cursor + 1, p.orig⟩ j hj]
            simp [groupText_cons, groupText_nil, hne, dropWs]
    · -- the piece does not fit on top of the overlap: no progress
      refine ⟨[], st, ?_, rfl, hst, by simp, by simp, fun j => by rw [hp]; simp [groupText_nil, dropWs], ?_, ?_⟩
      · simp only [fillNew, hp]
        rw [if_neg hfitp]
        simp
      · intro hcur _
        exfalso
        apply hfitp
        rw [hcur]
        simpa using hplen
      · intro _ hnd
        rw [hp]
        exact hnd

/-- One outer-loop iteration from a live, well-formed state always
emits a chunk (never gets stuck), the chunk has at least one
newly-introduced unit, the state stays well-formed, the measure
strictly decreases, and the new units carry exactly the pending
non-whitespace content. -/
theorem chunkStep_spec {lines : List Str} {cc oc : Nat} (hcc : 1 ≤ cc) (st : CState)
    (hst : StOK lines cc st) (hnd : ¬(lines.length ≤ st.i ∧ st.pending = none)) :
    ∃ (c : Chunk) (st' : CState),
      chunkStep lines cc oc st = .emit c st' ∧
      StOK lines cc st' ∧
      muM lines cc st' < muM lines cc st ∧
      c.overlapUnits < c.units.length ∧
      (∀ u ∈ c.units.drop c.overlapUnits, u.orig < lines.length ∧
        (u.split = false → u.text = lines.getD u.orig [])) ∧
      (∀ j, expectedDW lines st.i st.pending j =
        dropWs (groupText (c.units.drop c.overlapUnits) j) ++
          expectedDW lines st'.i st'.pending j) := by
  obtain ⟨batch1, st1, heq1, hprev1, hok1, hmu1, hunit1, hcontent1, hprog1, hnd1⟩ :=
    fillNew_spec hcc st (computeOverlap st.prevUnits (min oc (cc - 1))) hst
  by_cases hb1 : batch1.length = 0
  · -- the overlap left no room: the source retries once with no overlap
    have hb1' : batch1 = [] := List.length_eq_zero.mp hb1
    have hhl : 0 < min oc (cc - 1) := by
      by_contra hhl0
      have hhl0' : min oc (cc - 1) = 0 := by omega
      have hov : computeOverlap st.prevUnits (min oc (cc - 1)) = [] := by
        rw [hhl0']
        simp [computeOverlap]
      have := hprog1 (by rw [hov]; rfl) hnd
      omega
    obtain ⟨batch2, st2, heq2, hprev2, hok2, hmu2, hunit2, hcontent2, hprog2, -⟩ :=
      fillNew_spec hcc st1 [] hok1
    have hb2 : 1 ≤ batch2.length := hprog2 rfl (hnd1 hb1 hnd)
    refine ⟨mkChunk batch2 0, { st2 with prevUnits := batch2 }, ?_, ?_, ?_, ?_, ?_, ?_⟩
    · simp only [chunkStep]
      rw [if_neg hnd]
      simp only [heq1]
      rw [if_pos ⟨hb1, hhl⟩]
      simp only [heq2]
      rw [if_neg (show ¬ batch2.length = 0 by omega)]
      simp
    · exact hok2
    · rw [muM_prevUnits]
      omega
    · show 0 < batch2.length
      omega
    · intro u hu
      rw [show (mkChunk batch2 0).units.drop (mkChunk batch2 0).overlapUnits = batch2 by
        rw [mkChunk_units, mkChunk_overlapUnits, List.drop_zero]] at hu
      exact hunit2 u hu
    · intro j
      have h1 := hcontent1 j
      rw [hb1'] at h1
      simp only [groupText_nil] at h1
      simp only [dropWs, List.filter_nil, List.nil_append] at h1
      rw [h1, hcontent2 j,
        show (mkChunk batch2 0).units.drop (mkChunk batch2 0).overlapUnits = batch2 by
          rw [mkChunk_units, mkChunk_overlapUnits, List.drop_zero]]
  · -- the first fill already added new units: emit directly
    have hdropov : (mkChunk (computeOverlap st.prevUnits (min oc (cc - 1)) ++ batch1)
        (computeOverlap st.prevUnits (min oc (cc - 1))).length).units.drop
        (mkChunk (computeOverlap st.prevUnits (min oc (cc - 1)) ++ batch1)
        (computeOverlap st.prevUnits (min oc (cc - 1))).length).overlapUnits = batch1 := by
      rw [mkChunk_units, mkChunk_overlapUnits, List.drop_left]
    refine ⟨mkChunk (computeOverlap st.prevUnits (min oc (cc - 1)) ++ batch1)
        (computeOverlap st.prevUnits (min oc (cc - 1))).length,
      { st1 with prevUnits := computeOverlap st.prevUnits (min oc (cc - 1)) ++ batch1 },
      ?_, ?_, ?_, ?_, ?_, ?_⟩
    · simp only [chunkStep]
      rw [if_neg hnd]
      simp only [heq1]
      rw [if_neg (show ¬ (batch1.length = 0 ∧ 0 < min oc (cc - 1)) by simp [hb1]),
        if_neg hb1]
    · exact hok1
    · rw [muM_prevUnits]
      omega
    · rw [mkChunk_units, mkChunk_overlapUnits, List.length_append]
      omega
    · intro u hu
      rw [hdropov] at hu
      exact hunit1 u hu
    · intro j
      rw [hdropov]
      exact hcontent1 j

/-- The outer loop terminates within the fuel budget from any
well-formed state, every chunk has a newly-introduced unit, and the
new units across all chunks carry exactly the remaining non-whitespace
content of every line. -/
theorem chunkLoop_spec {lines : List Str} {cc oc : Nat} (hcc : 1 ≤ cc) :
    ∀ (fuel : Nat) (st : CState), StOK lines cc st → muM lines cc st < fuel →
      ∃ cs, chunkLoop lines cc oc fuel st = some cs ∧
        (∀ c ∈ cs, c.overlapUnits < c.units.length) ∧
        (∀ u ∈ newUnitsOf cs, u.orig < lines.length ∧
          (u.split = false → u.text = lines.getD u.orig [])) ∧
        (∀ j, expectedDW lines st.i st.pending j = dropWs (groupText (newUnitsOf cs) j)) := by
  intro fuel
  induction fuel with
  | zero =>
    intro st _ hmu
    omega
  | succ fuel ih =>
    intro st hst hmu
    by_cases hdone : lines.length ≤ st.i ∧ st.pending = none
    · refine ⟨[], ?_, by simp, by simp [newUnitsOf], ?_⟩
      · have hd : chunkStep lines cc oc st = .done := by
          simp only [chunkStep]
          rw [if_pos hdone]
        simp only [chunkLoop, hd]
      · intro j
        rw [hdone.2, expectedDW_none_eq, if_neg (by omega)]
        rfl
    · obtain ⟨c, st', hstep, hok', hmu', hinv, hunit, hcontent⟩ :=
        @chunkStep_spec lines cc oc hcc st hst hdone
      obtain ⟨cs', hloop', hcs', hunits', hcontent'⟩ := ih st' hok' (by omega)
      refine ⟨c :: cs', ?_, ?_, ?_, ?_⟩
      · simp only [chunkLoop, hstep, hloop', Option.map_some']
      · intro c' hc'
        rcases List.mem_cons.mp hc' with h | h
        · subst h
          exact hinv
        · exact hcs' c' h
      · intro u hu
        rw [show newUnitsOf (c :: cs') = c.units.drop c.overlapUnits ++ newUnitsOf cs' from rfl,
          List.mem_append] at hu
        rcases hu with h | h
        · exact hunit u h
        · exact hunits' u h
      · intro j
        rw [show newUnitsOf (c :: cs') = c.units.drop c.overlapUnits ++ newUnitsOf cs' from rfl,
          groupText_append, dropWs_append, hcontent j, hcontent' j]

/-- **C8.** With `chunk_chars ≥ 1` (the spec's caller precondition) the
chunker terminates on every input, and every emitted chunk contains at
least one newly-introduced unit: its `_overlap_units` count is strictly
below its unit count, so overlap-only chunks are never produced. -/
theorem chunker_terminates_with_new_units (lines : List Str) (cc oc : Nat) (hcc : 1 ≤ cc) :
    ∃ cs, chunk_text_line_preserving lines cc oc = some cs ∧
      ∀ c ∈ cs, c.overlapUnits < c.units.length := by
  unfold chunk_text_line_preserving
  by_cases hb : lines.all (fun ln => (pyStrip ln).isEmpty) = true
  · rw [if_pos hb]
    exact ⟨[], rfl, by simp⟩
  · rw [if_neg hb]
    have hmu : muM lines cc ⟨0, none, []⟩ < (lines.map (lineBudget cc)).sum + 1 := by
      show sumBudget lines cc 0 < _
      unfold sumBudget
      rw [List.drop_zero]
      omega
    obtain ⟨cs, hloop, hcs, -, -⟩ :=
      chunkLoop_spec hcc ((lines.map (lineBudget cc)).sum + 1) ⟨0, none, []⟩ True.intro hmu
    exact ⟨cs, hloop, hcs⟩

theorem chunker_terminates_with_new_units_witness :
    1 ≤ 3 ∧ ∃ cs, chunk_text_line_preserving [['a','b'], ['c']] 3 1 = some cs ∧
      ∀ c ∈ cs, c.overlapUnits < c.units.length :=
  ⟨by decide, chunker_terminates_with_new_units [['a','b'], ['c']] 3 1 (by decide)⟩

/-- **C1 (amended).** With `chunk_chars ≥ 1`, the chunker terminates and
its newly-introduced units reconstruct every original line's
non-whitespace content exactly and in order (concatenating the units of
one line without separators and erasing whitespace gives the line with
its whitespace erased); a unit that is not a split piece is a whole
original line verbatim.  Exact reconstruction of whitespace fails for
sentence-split lines (`reconstructs_exactly_counterexample`). -/
theorem chunker_reconstructs_content (lines : List Str) (cc oc : Nat) (hcc : 1 ≤ cc) :
    ∃ cs, chunk_text_line_preserving lines cc oc = some cs ∧
      (∀ j, j < lines.length →
        dropWs (groupText (newUnitsOf cs) j) = dropWs (lines.getD j [])) ∧
      (∀ u ∈ newUnitsOf cs, u.orig < lines.length ∧
        (u.split = false → u.text = lines.getD u.orig [])) := by
  unfold chunk_text_line_preserving
  by_cases hb : lines.all (fun ln => (pyStrip ln).isEmpty) = true
  · rw [if_pos hb]
    refine ⟨[], rfl, ?_, by simp [newUnitsOf]⟩
    intro j hj
    have hmem : lines.getD j [] ∈ lines := by
      rw [List.getD_eq_getElem lines [] hj]
      exact List.getElem_mem hj
    have hws : ∀ ch ∈ lines.getD j [], pyIsSpace ch := by
      have h1 := List.all_eq_true.mp hb _ hmem
      rw [List.isEmpty_iff] at h1
      exact fun ch hch => pyStrip_eq_nil_iff.mp h1 ch hch
    rw [dropWs_all_ws hws]
    rfl
  · rw [if_neg hb]
    have hmu : muM lines cc ⟨0, none, []⟩ < (lines.map (lineBudget cc)).sum + 1 := by
      show sumBudget lines cc 0 < _
      unfold sumBudget
      rw [List.drop_zero]
      omega
    obtain ⟨cs, hloop, -, hunits, hcontent⟩ :=
      chunkLoop_spec hcc ((lines.map (lineBudget cc)).sum + 1) ⟨0, none, []⟩ True.intro hmu
    refine ⟨cs, hloop, ?_, hunits⟩
    intro j hj
    have h := hcontent j
    rw [show (⟨0, none, []⟩ : CState).pending = none from rfl,
      show (⟨0, none, []⟩ : CState).i = 0 from rfl, expectedDW_none_eq,
      if_pos ⟨Nat.zero_le j, hj⟩] at h
    exact h.symm

/-! #### Context-overlap builder: length bound and order preservation -/

theorem suffix_append_right {a b : Str} (c : Str) (h : a <:+ b) : a ++ c <:+ b ++ c := by
  obtain ⟨t, ht⟩ := h
  exact ⟨t, by rw [← ht, List.append_assoc]⟩

theorem suffix_append_left {a b : Str} (x : Str) (h : a <:+ b) : a <:+ x ++ b := by
  obtain ⟨t, ht⟩ := h
  exact ⟨x ++ t, by rw [← ht, List.append_assoc]⟩

theorem dropWs_suffix_of_suffix {a b : Str} (h : a <:+ b) : dropWs a <:+ dropWs b := by
  obtain ⟨t, ht⟩ := h
  exact ⟨dropWs t, by rw [← ht, dropWs_append]⟩

theorem dropWs_reverse (t : Str) : dropWs t.reverse = (dropWs t).reverse := by
  simp only [dropWs, List.filter_reverse]

theorem dropWs_dropWhile (t : Str) : dropWs (t.dropWhile pyIsSpace) = dropWs t := by
  have h2 : dropWs t = dropWs (t.takeWhile pyIsSpace) ++ dropWs (t.dropWhile pyIsSpace) := by
    rw [← dropWs_append, List.takeWhile_append_dropWhile]
  rw [h2, dropWs_all_ws (fun c hc => List.mem_takeWhile_imp hc)]
  rfl

theorem dropWs_pyStrip (s : Str) : dropWs (pyStrip s) = dropWs s := by
  unfold pyStrip
  rw [dropWs_reverse, dropWs_dropWhile, dropWs_reverse, List.reverse_reverse, dropWs_dropWhile]

/-- `dropWs` erases an all-whitespace join separator entirely. -/
theorem dropWs_intercalate_ws {sep : Str} (hsep : ∀ ch ∈ sep, pyIsSpace ch) :
    ∀ xs : List Str, dropWs (List.intercalate sep xs) = (xs.map dropWs).join
  | [] => rfl
  | [x] => by
    rw [show List.intercalate sep [x] = x ++ [] from rfl]
    simp
  | x :: y :: rest => by
    rw [show List.intercalate sep (x :: y :: rest) =
        x ++ (sep ++ List.intercalate sep (y :: rest)) from rfl,
      dropWs_append, dropWs_append, dropWs_all_ws hsep,
      dropWs_intercalate_ws hsep (y :: rest)]
    simp

theorem splitlinesGo_dropWs_join :
    ∀ (cur s : Str),
      ((splitlinesGo cur s).map dropWs).join = (dropWs cur).reverse ++ dropWs s := by
  intro cur s
  induction cur, s using splitlinesGo.induct with
  | case1 cur hcur =>
    rw [show splitlinesGo cur [] = [] from by simp [splitlinesGo, hcur],
      List.isEmpty_iff.mp hcur]
    simp [dropWs]
  | case2 cur hcur =>
    rw [show splitlinesGo cur [] = [cur.reverse] from by simp [splitlinesGo, hcur]]
    simp [dropWs, List.filter_reverse]
  | case3 cur rest ih =>
    rw [show splitlinesGo cur ('\x0d' :: '\n' :: rest) = cur.reverse :: splitlinesGo [] rest
        from by simp [splitlinesGo],
      show ((cur.reverse :: splitlinesGo [] rest).map dropWs).join =
        dropWs cur.reverse ++ ((splitlinesGo [] rest).map dropWs).join from rfl,
      ih, dropWs_cons_space (show pyIsSpace '\x0d' = true by decide),
      dropWs_cons_space (show pyIsSpace '\n' = true by decide)]
    simp [dropWs, List.filter_reverse]
  | case4 cur rest hne ih =>
    rw [show splitlinesGo cur ('\x0d' :: rest) = cur.reverse :: splitlinesGo [] rest from by
        simp [splitlinesGo, hne],
      show ((cur.reverse :: splitlinesGo [] rest).map dropWs).join =
        dropWs cur.reverse ++ ((splitlinesGo [] rest).map dropWs).join from rfl,
      ih, dropWs_cons_space (show pyIsSpace '\x0d' = true by decide)]
    simp [dropWs, List.filter_reverse]
  | case5 cur rest ih =>
    rw [show splitlinesGo cur ('\n' :: rest) = cur.reverse :: splitlinesGo [] rest from by
        simp [splitlinesGo],
      show ((cur.reverse :: splitlinesGo [] rest).map dropWs).join =
        dropWs cur.reverse ++ ((splitlinesGo [] rest).map dropWs).join from rfl,
      ih, dropWs_cons_space (show pyIsSpace '\n' = true by decide)]
    simp [dropWs, List.filter_reverse]
  | case6 cur c rest h1 h2 h3 ih =>
    rw [show splitlinesGo cur (c :: rest) = splitlinesGo (c :: cur) rest from by
        simp [splitlinesGo, h1, h2, h3],
      ih]
    by_cases hc : pyIsSpace c = true
    · rw [dropWs_cons_space hc, dropWs_cons_space hc]
    · rw [dropWs_cons_nonspace (by simpa using hc), dropWs_cons_nonspace (by simpa using hc)]
      simp

theorem tailSentGo_suffix (limit : Nat) :
    ∀ (ls : List Str) (total : Nat) (out : List Str),
      ((tailSentGo limit ls total out).map dropWs).join <:+
        ((ls.reverse.map dropWs).join ++ ((out.map dropWs)).join) := by
  intro ls
  induction ls with
  | nil =>
    intro total out
    simp only [tailSentGo, List.reverse_nil, List.map_nil, List.join_nil, List.nil_append]
    exact List.suffix_refl _
  | cons s rest ih =>
    intro total out
    simp only [tailSentGo]
    by_cases hse : s.isEmpty = true
    · rw [if_pos hse]
      have hs : s = [] := List.isEmpty_iff.mp hse
      subst hs
      have heq : ((((([] : Str) :: rest).reverse.map dropWs).join) ++ ((out.map dropWs)).join) =
          (((rest.reverse.map dropWs).join) ++ ((out.map dropWs)).join) := by
        simp [dropWs]
      rw [heq]
      exact ih total out
    · rw [if_neg hse]
      by_cases hfit : total + (if total = 0 then s.length else 1 + s.length) ≤ limit
      · rw [if_pos hfit]
        have heq : ((((s :: rest).reverse.map dropWs).join) ++ ((out.map dropWs)).join) =
            (((rest.reverse.map dropWs).join) ++ ((((s :: out).map dropWs)).join)) := by
          simp [List.append_assoc]
        rw [heq]
        exact ih _ (s :: out)
      · rw [if_neg hfit]
        exact suffix_append_left _ (List.suffix_refl _)

theorem tailWordsGo_suffix (limit : Nat) :
    ∀ (ls : List Str) (total : Nat) (out : List Str),
      ((tailWordsGo limit ls total out).map dropWs).join <:+
        ((ls.reverse.map dropWs).join ++ ((out.map dropWs)).join) := by
  intro ls
  induction ls with
  | nil =>
    intro total out
    simp only [tailWordsGo, List.reverse_nil, List.map_nil, List.join_nil, List.nil_append]
    exact List.suffix_refl _
  | cons tok rest ih =>
    intro total out
    simp only [tailWordsGo]
    by_cases hfit : total + tok.length ≤ limit
    · rw [if_pos hfit]
      have heq : ((((tok :: rest).reverse.map dropWs).join) ++ ((out.map dropWs)).join) =
          (((rest.reverse.map dropWs).join) ++ ((((tok :: out).map dropWs)).join)) := by
        simp [List.append_assoc]
      rw [heq]
      exact ih _ (tok :: out)
    · rw [if_neg hfit]
      by_cases hsp : out.isEmpty = true ∧ limit < tok.length
      · rw [if_pos hsp]
        have hout : out = [] := List.isEmpty_iff.mp hsp.1
        subst hout
        have h1 : dropWs (tok.drop (tok.length - limit)) <:+ dropWs tok :=
          dropWs_suffix_of_suffix (List.drop_suffix _ _)
        have hL : (([tok.drop (tok.length - limit)] : List Str).map dropWs).join =
            dropWs (tok.drop (tok.length - limit)) := by simp
        have heq : ((((tok :: rest).reverse.map dropWs).join) ++
            ((([] : List Str).map dropWs)).join) =
            (((rest.reverse.map dropWs).join) ++ dropWs tok) := by
          simp
        rw [hL, heq]
        exact suffix_append_left _ h1
      · rw [if_neg hsp]
        exact suffix_append_left _ (List.suffix_refl _)

theorem tail_fit_by_sentences_suffix (line : Str) (limit : Nat) (sd : List Char) :
    dropWs (tail_fit_by_sentences line limit sd) <:+ dropWs line := by
  simp only [tail_fit_by_sentences]
  by_cases h0 : limit = 0 ∨ line.isEmpty = true
  · rw [if_pos h0]
    exact List.nil_suffix
  · rw [if_neg h0]
    by_cases h1 : (splitAfterDelims (if sd.isEmpty then sentenceDelims else sd) line).length ≤ 1
    · rw [if_pos h1]
      exact List.nil_suffix
    · rw [if_neg h1, dropWs_intercalate_ws (by decide)]
      have h := tailSentGo_suffix limit
        (splitAfterDelims (if sd.isEmpty then sentenceDelims else sd) line).reverse 0 []
      rw [List.reverse_reverse] at h
      refine h.trans ?_
      rw [show ((((splitAfterDelims (if sd.isEmpty then sentenceDelims else sd) line).map
          dropWs).join) ++ ((([] : List Str).map dropWs)).join) = dropWs line from by
        simp only [List.map_nil, List.join_nil, List.append_nil]
        rw [splitAfterDelims_dropWs_join]]

theorem tail_fit_by_words_suffix (text : Str) (limit : Nat) :
    dropWs (tail_fit_by_words text limit) <:+ dropWs text := by
  simp only [tail_fit_by_words]
  by_cases h0 : limit = 0 ∨ text.isEmpty = true
  · rw [if_pos h0]
    exact List.nil_suffix
  · rw [if_neg h0, dropWs_pyStrip, dropWs_join]
    have h := tailWordsGo_suffix limit (tokenizeWs text).reverse 0 []
    rw [List.reverse_reverse] at h
    refine h.trans ?_
    rw [show ((((tokenizeWs text).map dropWs).join) ++ ((([] : List Str).map dropWs)).join) =
        dropWs text from by
      simp only [List.map_nil, List.join_nil, List.append_nil]
      rw [← dropWs_join, tokenizeWs_join]]

theorem ctxGo_suffix (maxChars : Nat) (sd : List Char) :
    ∀ (ls : List Str) (total : Nat) (acc : List Str),
      ((ctxGo maxChars sd ls total acc).map dropWs).join <:+
        ((ls.reverse.map dropWs).join ++ ((acc.map dropWs)).join) := by
  intro ls
  induction ls with
  | nil =>
    intro total acc
    simp only [ctxGo, List.reverse_nil, List.map_nil, List.join_nil, List.nil_append]
    exact List.suffix_refl _
  | cons ln rest ih =>
    intro total acc
    simp only [ctxGo]
    by_cases hfit : total + (if total = 0 then ln.length else 1 + ln.length) ≤ maxChars
    · rw [if_pos hfit]
      have heq : ((((ln :: rest).reverse.map dropWs).join) ++ ((acc.map dropWs)).join) =
          (((rest.reverse.map dropWs).join) ++ ((((ln :: acc).map dropWs)).join)) := by
        simp [List.append_assoc]
      rw [heq]
      exact ih _ (ln :: acc)
    · rw [if_neg hfit]
      by_cases hpe : (if (tail_fit_by_sentences ln (maxChars - total) sd).isEmpty then
          tail_fit_by_words ln (maxChars - total) else
          tail_fit_by_sentences ln (maxChars - total) sd).isEmpty = true
      · rw [if_pos hpe]
        exact suffix_append_left _ (List.suffix_refl _)
      · rw [if_neg hpe]
        have hpart : dropWs (if (tail_fit_by_sentences ln (maxChars - total) sd).isEmpty then
            tail_fit_by_words ln (maxChars - total) else
            tail_fit_by_sentences ln (maxChars - total) sd) <:+ dropWs ln := by
          by_cases hs : (tail_fit_by_sentences ln (maxChars - total) sd).isEmpty = true
          · rw [if_pos hs]
            exact tail_fit_by_words_suffix ln (maxChars - total)
          · rw [if_neg hs]
            exact tail_fit_by_sentences_suffix ln (maxChars - total) sd
        rw [show ((((ln :: rest).reverse.map dropWs).join) ++ ((acc.map dropWs)).join) =
            (((rest.reverse.map dropWs).join) ++ (dropWs ln ++ ((acc.map dropWs)).join)) from by
          simp [List.append_assoc],
          show ((((if (tail_fit_by_sentences ln (maxChars - total) sd).isEmpty then
            tail_fit_by_words ln (maxChars - total) else
            tail_fit_by_sentences ln (maxChars - total) sd) :: acc).map dropWs).join) =
            (dropWs (if (tail_fit_by_sentences ln (maxChars - total) sd).isEmpty then
            tail_fit_by_words ln (maxChars - total) else
            tail_fit_by_sentences ln (maxChars - total) sd) ++ ((acc.map dropWs)).join) from by
          simp]
        exact suffix_append_left _ (suffix_append_right _ hpart)

/-- **C7.** The context-overlap string never exceeds `max_chars`, and
its non-whitespace characters are a contiguous suffix of the chosen
source text's non-whitespace characters — so every line, sentence and
word it contains appears in source order, never reversed. -/
theorem build_context_overlap_spec (prevRaw prevCleaned source : Str)
    (maxChars : Nat) (sd : List Char) :
    (build_context_overlap prevRaw prevCleaned source maxChars sd).length ≤ maxChars ∧
    dropWs (build_context_overlap prevRaw prevCleaned source maxChars sd) <:+
      dropWs (chosenSource prevRaw prevCleaned source) := by
  simp only [build_context_overlap]
  by_cases h0 : maxChars = 0 ∨ source = "none".data
  · rw [if_pos h0]
    exact ⟨by simp, List.nil_suffix⟩
  · rw [if_neg h0]
    by_cases h1 : (chosenSource prevRaw prevCleaned source).isEmpty = true
    · rw [if_pos h1]
      exact ⟨by simp, List.nil_suffix⟩
    · rw [if_neg h1]
      have hsuf : dropWs (pyStrip (joinNl (ctxGo maxChars sd
          (splitlines (chosenSource prevRaw prevCleaned source)).reverse 0 []))) <:+
          dropWs (chosenSource prevRaw prevCleaned source) := by
        rw [dropWs_pyStrip, joinNl, dropWs_intercalate_ws (by decide)]
        have h := ctxGo_suffix maxChars sd
          (splitlines (chosenSource prevRaw prevCleaned source)).reverse 0 []
        rw [List.reverse_reverse] at h
        refine h.trans ?_
        rw [show ((((splitlines (chosenSource prevRaw prevCleaned source)).map dropWs).join) ++
            ((([] : List Str).map dropWs)).join) =
            dropWs (chosenSource prevRaw prevCleaned source) from by
          simp only [List.map_nil, List.join_nil, List.append_nil]
          simpa [dropWs, splitlines] using
            splitlinesGo_dropWs_join [] (chosenSource prevRaw prevCleaned source)]
      refine ⟨?_, ?_⟩
      · by_cases h2 : maxChars < (pyStrip (joinNl (ctxGo maxChars sd
            (splitlines (chosenSource prevRaw prevCleaned source)).reverse 0 []))).length
        · rw [if_pos h2, List.length_drop]
          omega
        · rw [if_neg h2]
          omega
      · by_cases h2 : maxChars < (pyStrip (joinNl (ctxGo maxChars sd
            (splitlines (chosenSource prevRaw prevCleaned source)).reverse 0 []))).length
        · rw [if_pos h2]
          exact (dropWs_suffix_of_suffix (List.drop_suffix _ _)).trans hsuf
        · rw [if_neg h2]
          exact hsuf

theorem chunker_reconstructs_content_witness :
    1 ≤ 3 ∧ ∃ cs, chunk_text_line_preserving [['a','b'], ['c']] 3 1 = some cs ∧
      (∀ j, j < ([['a','b'], ['c']] : List Str).length →
        dropWs (groupText (newUnitsOf cs) j) =
          dropWs (([['a','b'], ['c']] : List Str).getD j [])) ∧
      (∀ u ∈ newUnitsOf cs, u.orig < ([['a','b'], ['c']] : List Str).length ∧
        (u.split = false → u.text = ([['a','b'], ['c']] : List Str).getD u.orig [])) :=
  ⟨by decide, chunker_reconstructs_content [['a','b'], ['c']] 3 1 (by decide)⟩

end Pipeline
